import Mathlib

/-!
Verification development for the C runtime in `src/rts/idris_rts.c`
(heap bump allocator, cross-machine value copy, string slices, the
per-machine message inbox, and string/integer conversion).

Each C function needed by the checked properties is embedded as a Lean
definition that mirrors the corresponding C source line by line; machine
pointers become natural-number offsets or addresses, fallible or
non-returning C paths become `Option`, and the unbounded C recursion in
`allocate` becomes fuel-indexed recursion where the fuel only bounds how
many steps of the (possibly non-terminating) C computation we observe.

The garbage collector itself lives in `idris_gc.c`, which is not part of
the sources under verification; following its stated contract it is kept
abstract as a parameter `gc : AllocHeap → AllocHeap` that may transform
the bump region arbitrarily (the contract promises updated roots, not any
amount of free space).
-/

set_option maxRecDepth 100000

namespace IdrisRTS

/-! ## Bump allocator (`allocate`, `idris_requireAlloc`, `idris_doneAlloc`) -/

/-- The bump region of the managed heap: the `next` and `end` fields of the
`Heap` structure, as byte offsets from the region start.  (`end` is a Lean
keyword, hence `hend`.) -/
structure AllocHeap where
  next : Nat
  hend : Nat
deriving DecidableEq, Repr

/-- The allocator-relevant part of a `VM`: its bump region and the
`stats.collections` counter incremented by every garbage collection. -/
structure AllocVM where
  heap : AllocHeap
  collections : Nat
deriving DecidableEq, Repr

/-- `sizeof(size_t)` on the 64-bit hosts the runtime targets: the in-band
chunk size header written at `heap.next` before every allocation. -/
def headerSize : Nat := 8

/-- The size rounding at the top of `allocate`:
`if ((size & 7)!=0) size = 8 + ((size >> 3) << 3);`. -/
def roundSize (size : Nat) : Nat :=
  if size % 8 ≠ 0 then 8 + ((size >>> 3) <<< 3) else size

/-- One call to `idris_gc(vm)`: the collector (abstract, see the header
comment) rewrites the bump region and bumps `stats.collections`. -/
def gcStep (gc : AllocHeap → AllocHeap) (st : AllocVM) : AllocVM :=
  ⟨gc st.heap, st.collections + 1⟩

/-- `allocate(size, outerlock)` from `idris_rts.c`.

The fast path: round the size, add the header, and if
`heap.next + chunk_size < heap.end` write the header, bump `next` and
return the interior pointer `next + sizeof(size_t)`.  Otherwise the C code
calls `idris_gc(vm)` and recurses with `allocate(size, 0)` — with no bound
and no failure branch.  `fuel` bounds how many attempts we observe; a
`none` result means the C code is still inside this retry recursion.  The
`outerlock` argument only controls mutex acquisition (irrelevant to the
sequential heap state) and is therefore unused, exactly like the
`assert`, the `memset` of the payload and the `STATS_ALLOC` byte counter,
which do not affect `next`, `end` or `collections`. -/
def allocate (gc : AllocHeap → AllocHeap) :
    Nat → AllocVM → Nat → Nat → Option Nat × AllocVM
  | 0, st, _, _ => (none, st)
  | fuel+1, st, size0, _outerlock =>
    let size := roundSize size0
    let chunk := size + headerSize
    if st.heap.next + chunk < st.heap.hend then
      (some (st.heap.next + headerSize),
        ⟨⟨st.heap.next + chunk, st.heap.hend⟩, st.collections⟩)
    else
      allocate gc fuel (gcStep gc st) size0 0

/-- `idris_requireAlloc(size)`: if `heap.next + size < heap.end` fails, run
a collection now; then (in threaded mode) take `alloc_lock`, which the
sequential heap model does not track. -/
def idris_requireAlloc (gc : AllocHeap → AllocHeap) (st : AllocVM) (size : Nat) :
    AllocVM :=
  if ¬ (st.heap.next + size < st.heap.hend) then gcStep gc st else st

/-- `idris_doneAlloc()`: releases `alloc_lock`; no effect on the heap. -/
def idris_doneAlloc (st : AllocVM) : AllocVM := st

/-- A sequence of guarded allocations (the `Mc(...)` constructors pass
`outerlock = 1`), as performed inside a `require`/`done` window; returns
the interior pointers obtained and the final VM state. -/
def allocSeq (gc : AllocHeap → AllocHeap) (fuel : Nat) :
    AllocVM → List Nat → List (Option Nat) × AllocVM
  | st, [] => ([], st)
  | st, s :: rest =>
    let r := allocate gc fuel st s 1
    let rr := allocSeq gc fuel r.2 rest
    (r.1 :: rr.1, rr.2)

/-- `k` collections in a row (the state after `k` failed fast paths). -/
def gcIter (gc : AllocHeap → AllocHeap) : Nat → AllocVM → AllocVM
  | 0, st => st
  | k+1, st => gcIter gc k (gcStep gc st)

/-- The fast-path test of `allocate` for a given request. -/
def fastOk (st : AllocVM) (size : Nat) : Prop :=
  st.heap.next + (roundSize size + headerSize) < st.heap.hend

/-- The state after a successful fast path for `size`. -/
def bumpOk (st : AllocVM) (size : Nat) : AllocVM :=
  ⟨⟨st.heap.next + (roundSize size + headerSize), st.heap.hend⟩, st.collections⟩

/-- A collector that reclaims nothing — admissible under the GC contract
(which promises updated roots, not free space; with every cell reachable a
copying collection frees no bytes). -/
def gcId : AllocHeap → AllocHeap := fun h => h

/-- A collector behavior in which the region `[0, 100)` becomes free —
e.g. after unreachable cells were reclaimed into a fresh region. -/
def gcFrees : AllocHeap → AllocHeap := fun _ => ⟨0, 100⟩

/-- Total chunk footprint of a list of requested sizes: each request
consumes `roundSize s + headerSize` bytes of the bump region. -/
def chunkSizes (sizes : List Nat) : Nat :=
  (sizes.map (fun s => roundSize s + headerSize)).sum

instance (st : AllocVM) (size : Nat) : Decidable (fastOk st size) := by
  unfold fastOk; infer_instance

/-! ## String to integer conversion (`idris_castStrInt`)

C strings are modelled as lists of byte values without the terminating
NUL; `strtol`'s returned `end` pointer becomes the returned rest-of-list
(so `*end == '\0'` is "the rest is empty"). -/

/-- `isspace` bytes skipped by `strtol`. -/
def isSpaceByte (c : Nat) : Bool :=
  c = 32 || c = 9 || c = 10 || c = 11 || c = 12 || c = 13

/-- `LONG_MAX` for the 64-bit `i_int`. -/
def longMax : Int := 2 ^ 63 - 1

/-- `LONG_MIN` for the 64-bit `i_int`. -/
def longMin : Int := -(2 ^ 63)

/-- `strtol` saturates at the representable range (setting `ERANGE`). -/
def clampLong (v : Int) : Int :=
  if v > longMax then longMax else if v < longMin then longMin else v

/-- One step of decimal accumulation: `acc * 10 + (c - '0')`. -/
def digitStep (a : Int) (c : Nat) : Int := a * 10 + ((c : Int) - 48)

/-- The digit-accumulation loop of `strtol`, base 10; returns the value
accumulated so far and the unconsumed rest. -/
def digitsLoop : List Nat → Int → Int × List Nat
  | [], acc => (acc, [])
  | c :: rest, acc =>
    if 48 ≤ c ∧ c ≤ 57 then digitsLoop rest (digitStep acc c)
    else (acc, c :: rest)

/-- After the optional sign: if the next byte is a digit, consume the
digit run and saturate; otherwise no conversion is performed and `end`
is reset to the original start `s0`. -/
def strtolNum (s0 s : List Nat) (neg : Bool) : Int × List Nat :=
  match s with
  | c :: _ =>
    if 48 ≤ c ∧ c ≤ 57 then
      let r := digitsLoop s 0
      (clampLong (if neg then -r.1 else r.1), r.2)
    else (0, s0)
  | [] => (0, s0)

/-- Modelled from libc (an external collaborator of the runtime):
`strtol(nptr, &end, 10)` — skip whitespace, optional sign, decimal digit
run, saturating at `LONG_MAX`/`LONG_MIN`; if no digits are consumed the
value is 0 and `end` is the original `nptr`. -/
def strtol10 (s : List Nat) : Int × List Nat :=
  match s.dropWhile isSpaceByte with
  | 45 :: s2 => strtolNum s s2 true
  | 43 :: s2 => strtolNum s s2 false
  | s1 => strtolNum s s1 false

/-- `idris_castStrInt(vm, i)`: `strtol` base 10 on the string's bytes,
then `MKINT(v)` if the byte at `end` is `'\0'`, `'\n'` or `'\r'`, else
`MKINT(0)`.  The returned `Int` is the integer carried by the resulting
inline `MKINT` value. -/
def idris_castStrInt (s : List Nat) : Int :=
  let r := strtol10 s
  match r.2 with
  | [] => r.1
  | c :: _ => if c = 10 ∨ c = 13 then r.1 else 0

/-- The decimal value of a digit-byte string. -/
def decimalVal (ds : List Nat) : Int :=
  ds.foldl digitStep 0

/-! ## The message inbox (`idris_sendMessage`, `idris_recvMessageFrom`,
`idris_checkMessagesFrom`)

An inbox slot is a `Msg` structure `(sender, msg)`; both fields are
machine/value pointers, with `NULL` modelled as `none` (senders and
message values are abstract identifiers).  The inbox is the fixed
1024-slot array with the `inbox_write` cursor as an index.  The mutual
exclusion provided by `inbox_lock`/`inbox_block` makes each send and each
receive atomic, so concurrent executions are linearizations: we model
them as sequences of atomic operations.  `copyTo` into the destination
heap is modelled as the identity on the abstract message value (the
heap-level copy is verified separately via `doCopyTo` below) and is
accounted by the `copies` counter. -/

/-- An inbox slot: the `sender` and `msg` fields of `Msg`. -/
abbrev MsgSlot := Option Nat × Option Nat

/-- `vm->inbox_end - vm->inbox`: 1024 slots, from `init_vm`. -/
def inboxCap : Nat := 1024

/-- The inbox-relevant part of a `VM`: the `active` flag, the slot array,
the `inbox_write` cursor, and a counter of copies made into this VM's
heap. -/
structure VMIn where
  active : Bool
  slots : List MsgSlot
  w : Nat
  copies : Nat
deriving DecidableEq, Repr

/-- `init_vm`: inbox zeroed (`memset(vm->inbox, 0, 1024*sizeof(VAL))`),
`inbox_write = inbox`, `active = 1`. -/
def init_vm : VMIn := ⟨true, List.replicate inboxCap (none, none), 0, 0⟩

/-- `terminate(vm)`: frees the resources and sets `active = 0`, keeping
the machine record so that later sends observe the flag. -/
def terminate (st : VMIn) : VMIn := ⟨false, st.slots, st.w, st.copies⟩

/-- `idris_sendMessage(sender, dest, msg)`.  If `dest->active == 0`
return 0 at once — before the copy, the inbox-full check, the slot write
and the signal.  Otherwise copy the message into `dest` (here: bump
`copies`), abort with the `"Inbox full"` diagnostic if
`inbox_write >= inbox_end` (the `none` result), else write the slot at
the cursor, advance the cursor, signal `inbox_waiting`, and return 1. -/
def idris_sendMessage (dest : VMIn) (sender m : Nat) : Option (VMIn × Nat) :=
  if dest.active = false then some (dest, 0)
  else
    let dest1 : VMIn := ⟨dest.active, dest.slots, dest.w, dest.copies + 1⟩
    if inboxCap ≤ dest1.w then none
    else some (⟨dest1.active, dest1.slots.set dest1.w (some sender, some m),
               dest1.w + 1, dest1.copies⟩, 1)

/-- The scan of `idris_checkMessagesFrom`: walk the slots from `inbox`
while `msg < inbox_end && msg->msg != NULL`, returning the first slot's
sender that matches the filter (`NULL` filter matches anything).  The
loop counter is split into the index `i` and the remaining iteration
count `fuel = inboxCap - i`, so that the recursion is structural. -/
def checkScan (st : VMIn) (sender : Option Nat) : Nat → Nat → Option Nat
  | 0, _ => none
  | fuel+1, i =>
    let slot := st.slots.getD i (none, none)
    if slot.2 = (none : Option Nat) then none
    else if sender = none ∨ sender = slot.1 then slot.1
    else checkScan st sender fuel (i+1)

/-- `idris_checkMessagesFrom(vm, sender)`. -/
def idris_checkMessagesFrom (st : VMIn) (sender : Option Nat) : Option Nat :=
  checkScan st sender inboxCap 0

/-- The scan of `idris_getMessageFrom`: walk the slots in
`[inbox, inbox_write)` and return the first one matching the filter —
returned here as its index together with the slot contents.  As in
`checkScan`, `fuel = st.w - i` makes the loop structural. -/
def getScan (st : VMIn) (sender : Option Nat) : Nat → Nat → Option (Nat × MsgSlot)
  | 0, _ => none
  | fuel+1, i =>
    let slot := st.slots.getD i (none, none)
    if sender = none ∨ sender = slot.1 then some (i, slot)
    else getScan st sender fuel (i+1)

/-- `idris_getMessageFrom(vm, sender)`. -/
def idris_getMessageFrom (st : VMIn) (sender : Option Nat) :
    Option (Nat × MsgSlot) :=
  getScan st sender st.w 0

/-- The compaction loop of `idris_recvMessageFrom`: starting from the
removed message's index, slide each subsequent slot down by one
(`msg->sender = (msg+1)->sender; msg->msg = (msg+1)->msg`), skipping the
copy when `msg+1 == inbox_end`.  `fuel = w - i` bounds the loop
structurally. -/
def compactLoop : Nat → List MsgSlot → Nat → List MsgSlot
  | 0, slots, _ => slots
  | fuel+1, slots, i =>
    compactLoop fuel
      (if i + 1 ≠ inboxCap then slots.set i (slots.getD (i+1) (none, none)) else slots)
      (i+1)

/-- `idris_recvMessageFrom(vm, sender)`.  When no matching message is
pending the C code waits on `inbox_waiting` and rescans; a sequential
execution in which that happens has no receive result, modelled as
`none`.  Otherwise the found slot is copied into the returned `Msg`,
the inbox is compacted from the found index, the slot at `inbox_write`
is cleared — when `inbox_write == inbox_end` (a full inbox) this write
is one past the array, which we model as a no-op `List.set` — and the
cursor is decremented. -/
def idris_recvMessageFrom (st : VMIn) (sender : Option Nat) :
    Option (VMIn × MsgSlot) :=
  match idris_getMessageFrom st sender with
  | none => none
  | some (k, slot) =>
    let slots1 := compactLoop (st.w - k) st.slots k
    let slots2 := slots1.set st.w (none, none)
    some (⟨st.active, slots2, st.w - 1, st.copies⟩, slot)

/-- One atomic inbox operation on a receiver: a send from some sender, or
a (blocking, optionally filtered) receive by the owner. -/
inductive InOp where
  | send (sender m : Nat)
  | recv (filter : Option Nat)
deriving DecidableEq, Repr

/-- Execute one operation; `none` when the C code aborts (inbox full) or
blocks forever (receive with no matching message in a sequential
execution).  A receive's returned `Msg` is emitted as an output. -/
def execOp (st : VMIn) : InOp → Option (VMIn × List MsgSlot)
  | InOp.send s m => (idris_sendMessage st s m).map (fun p => (p.1, []))
  | InOp.recv f => (idris_recvMessageFrom st f).map (fun p => (p.1, [p.2]))

/-- Execute a linearized sequence of sends and receives, collecting the
received messages in order. -/
def execTrace (st : VMIn) : List InOp → Option (VMIn × List MsgSlot)
  | [] => some (st, [])
  | op :: rest =>
    match execOp st op with
    | none => none
    | some (st1, outs1) =>
      match execTrace st1 rest with
      | none => none
      | some (st2, outs2) => some (st2, outs1 ++ outs2)

/-- The message values among `l` carried by slots from sender `S`. -/
def fromSender (S : Nat) (l : List MsgSlot) : List (Option Nat) :=
  l.filterMap (fun p => if p.1 = some S then some p.2 else none)

/-- The message values sent by `S` in a trace, in order. -/
def sentBy (S : Nat) : List InOp → List (Option Nat)
  | [] => []
  | InOp.send s m :: rest =>
    if s = S then some m :: sentBy S rest else sentBy S rest
  | InOp.recv _ :: rest => sentBy S rest

/-- The pending region `[inbox, inbox_write)`. -/
def pendingList (st : VMIn) : List MsgSlot := st.slots.take st.w

/-- The pending message values from sender `S`, in inbox order. -/
def pendingFrom (S : Nat) (st : VMIn) : List (Option Nat) :=
  fromSender S (pendingList st)

/-- A full inbox: 1024 pending messages, all from sender 5 with value 7
(the state reached from `init_vm` by 1024 sends from machine 5). -/
def fullInbox : VMIn :=
  ⟨true, List.replicate inboxCap (some 5, some 7), inboxCap, inboxCap⟩

/-- A demonstration trace: sender 1 sends 10, sender 2 sends 99, sender 1
sends 20; then a receive filtered on sender 1, and two unfiltered
receives. -/
def demoOps : List InOp :=
  [InOp.send 1 10, InOp.send 2 99, InOp.send 1 20,
   InOp.recv (some 1), InOp.recv none, InOp.recv none]

/-- The result of running `demoOps` from a fresh machine. -/
def demoRes : VMIn × List MsgSlot :=
  (execTrace init_vm demoOps).getD (init_vm, [])

/-- The inbox state invariant maintained outside the critical sections of
an active machine: 1024 slots, cursor within bounds, and every pending
slot holds a non-NULL sender and a non-NULL message. -/
def InvIn (st : VMIn) : Prop :=
  st.active = true ∧ st.slots.length = inboxCap ∧ st.w ≤ inboxCap ∧
  ∀ i, i < st.w → (st.slots.getD i (none, none)).1.isSome = true ∧
    (st.slots.getD i (none, none)).2.isSome = true

/-! ## Heap cells and cross-machine copy (`doCopyTo`)

C memory is modelled as a single address space: a `Store` is a list of
cells, a cell's address is its index, and allocation appends at the end
(`allocate` returns a fresh address; the target machine's bump region is
the tail of the store).  A `VAL` is NULL, an inline small integer
(`ISINT`), or a cell address.  `init_nullaries` places the process-wide
`nullary_cons` table at addresses `0..255`, one `CT_CON` cell of arity 0
per tag, before any heap cell exists.

Cell payloads: a float's IEEE-754 bit pattern, a string's bytes (without
the terminating NUL), a bigint's value (the GMP copy `MKBIGMc` lives in
the bignum adapter outside `src/`; following the spec it produces a new
cell of the same tag with the payload copied), an opaque pointer's
address, a managed pointer's owned bytes, the word cells' values (their
`idris_bNCopyForGC` helpers are likewise payload-copying constructors
outside `src/`), a raw blob's bytes, a slice's root reference and byte
offset, a C-heap item handle, and a forwarding target. -/

/-- A runtime `VAL`: NULL, an inline integer, or a pointer to a cell. -/
inductive IVal where
  | vnull
  | vint (n : Int)
  | vaddr (a : Nat)
deriving DecidableEq, Repr

/-- A heap cell (`Closure`), by `ClosureType`. -/
inductive Cell where
  | con (tag : Nat) (args : List IVal)
  | flt (bits : Nat)
  | str (bytes : List Nat)
  | big (v : Int)
  | ptr (p : Nat)
  | mptr (bytes : List Nat)
  | bits8 (v : Nat)
  | bits16 (v : Nat)
  | bits32 (v : Nat)
  | bits64 (v : Nat)
  | rawdata (bytes : List Nat)
  | stroffset (root : IVal) (off : Nat)
  | cdata (item : Nat)
  | fwd (v : IVal)
deriving DecidableEq, Repr

/-- A memory: cells addressed by their index. -/
abbrev Store := List Cell

/-- Writing child `v` into argument slot `i` of the constructor cell at
address `a` (`*argptr = ...` in `doCopyTo`). -/
def updateConArg (st : Store) (a i : Nat) (v : IVal) : Store :=
  match st[a]? with
  | some (Cell.con t args) => st.set a (Cell.con t (args.set i v))
  | _ => st

/-- The child-copy loop of `doCopyTo`'s `CT_CON` case: for each source
argument in turn, copy it (via the recursive call `copy`) and store the
result into the next argument slot of the freshly allocated cell at
address `na`. -/
def copyArgsF (copy : Store → IVal → Option (Store × IVal)) :
    Store → Nat → Nat → List IVal → Option Store
  | st, _, _, [] => some st
  | st, na, i, x :: rest =>
    match copy st x with
    | none => none
    | some (st1, v) => copyArgsF copy (updateConArg st1 na i v) na (i+1) rest

/-- The body of `doCopyTo(vm, x)`; `copy` stands for the recursive call.
`NULL` and inline integers are returned unchanged with no allocation.  A
nullary constructor with tag < 256 is globally allocated: the reference
itself is returned (`cl = x`).  Other constructors get a fresh cell
(`allocCon`, arguments zero-initialized by `allocate`'s memset) whose
argument slots are then filled left to right by recursive copies.  The
leaf tags each allocate a fresh cell with the payload copied (`MKFLOATc`,
`MKSTRc`, `MKBIGMc`, `MKPTRc`, `MKMPTRc`, `idris_b*CopyForGC`, and the
`CT_RAWDATA` memcpy).  `CT_STROFFSET`, `CT_CDATA` and `CT_FWD` fall into
the `default: assert(0)` arm — no value is produced (`none`), the
process aborts. -/
def doCopyToCore (copy : Store → IVal → Option (Store × IVal)) (st : Store)
    (x : IVal) : Option (Store × IVal) :=
  match x with
  | IVal.vnull => some (st, x)
  | IVal.vint _ => some (st, x)
  | IVal.vaddr a =>
    match st[a]? with
    | none => none
    | some (Cell.con t args) =>
      if args.length = 0 ∧ t < 256 then some (st, IVal.vaddr a)
      else
        match copyArgsF copy (st ++ [Cell.con t (args.map (fun _ => IVal.vnull))])
            st.length 0 args with
        | none => none
        | some st2 => some (st2, IVal.vaddr st.length)
    | some (Cell.flt b) => some (st ++ [Cell.flt b], IVal.vaddr st.length)
    | some (Cell.str s) => some (st ++ [Cell.str s], IVal.vaddr st.length)
    | some (Cell.big v) => some (st ++ [Cell.big v], IVal.vaddr st.length)
    | some (Cell.ptr p) => some (st ++ [Cell.ptr p], IVal.vaddr st.length)
    | some (Cell.mptr bs) => some (st ++ [Cell.mptr bs], IVal.vaddr st.length)
    | some (Cell.bits8 v) => some (st ++ [Cell.bits8 v], IVal.vaddr st.length)
    | some (Cell.bits16 v) => some (st ++ [Cell.bits16 v], IVal.vaddr st.length)
    | some (Cell.bits32 v) => some (st ++ [Cell.bits32 v], IVal.vaddr st.length)
    | some (Cell.bits64 v) => some (st ++ [Cell.bits64 v], IVal.vaddr st.length)
    | some (Cell.rawdata bs) => some (st ++ [Cell.rawdata bs], IVal.vaddr st.length)
    | some (Cell.stroffset _ _) => none
    | some (Cell.cdata _) => none
    | some (Cell.fwd _) => none

/-- `doCopyTo`, fueled: `fuel` bounds the recursion depth we observe
(the C recursion is bounded by the value's depth). -/
def doCopyTo : Nat → Store → IVal → Option (Store × IVal)
  | 0, _, _ => none
  | fuel+1, st, x => doCopyToCore (doCopyTo fuel) st x

/-- `nullary_cons[t]` is the cell at address `t`: `init_nullaries` runs
at process start, before any machine allocates, so the table occupies
the first 256 addresses. -/
def nullary_cons_addr (t : Nat) : Nat := t

/-- `init_nullaries`: 256 zero-arity constructor cells, one per tag. -/
def init_nullaries : Store :=
  (List.range 256).map (fun i => Cell.con i [])

/-- A store whose first 256 addresses hold the intact `nullary_cons`
table.  Per the spec, every reference to a nullary constructor with tag
below 256 is a reference to the corresponding table cell (modelled from
the spec: the interning constructor `MKCON`/`allocCon` lives in
`idris_rts.h`, outside `src/`). -/
def globalsOk (st : Store) : Prop :=
  ∀ i, i < 256 → st[i]? = some (Cell.con i [])

/-- The abstract shape of a value: the tree obtained by a depth-first
traversal, one node per (tag, payload) pair.  Two values represent the
same `VTree` exactly when their depth-first traversals yield structurally
identical (tag, payload) sequences, integer and float payloads compared
bit-exactly. -/
inductive VTree where
  | tnull
  | tint (n : Int)
  | tcon (tag : Nat) (args : List VTree)
  | tflt (bits : Nat)
  | tstr (bytes : List Nat)
  | tbig (v : Int)
  | tptr (p : Nat)
  | tmptr (bytes : List Nat)
  | tbits8 (v : Nat)
  | tbits16 (v : Nat)
  | tbits32 (v : Nat)
  | tbits64 (v : Nat)
  | trawdata (bytes : List Nat)

mutual

/-- Height of a value tree (leaves have height 1). -/
def VTree.height : VTree → Nat
  | VTree.tnull => 1
  | VTree.tint _ => 1
  | VTree.tcon _ ts => VTree.heightL ts + 1
  | VTree.tflt _ => 1
  | VTree.tstr _ => 1
  | VTree.tbig _ => 1
  | VTree.tptr _ => 1
  | VTree.tmptr _ => 1
  | VTree.tbits8 _ => 1
  | VTree.tbits16 _ => 1
  | VTree.tbits32 _ => 1
  | VTree.tbits64 _ => 1
  | VTree.trawdata _ => 1

/-- Maximum height of a list of trees. -/
def VTree.heightL : List VTree → Nat
  | [] => 0
  | t :: ts => max (VTree.height t) (VTree.heightL ts)

end

/-- `RepP P st x t`: in store `st`, the value `x` represents the tree
`t`, visiting only cell addresses satisfying `P`. -/
inductive RepP (P : Nat → Prop) (st : Store) : IVal → VTree → Prop where
  | vnull : RepP P st IVal.vnull VTree.tnull
  | vint (n : Int) : RepP P st (IVal.vint n) (VTree.tint n)
  | vcon (a t : Nat) (args : List IVal) (ts : List VTree) :
      P a → st[a]? = some (Cell.con t args) → args.length = ts.length →
      (∀ j, j < args.length →
        RepP P st (args.getD j IVal.vnull) (ts.getD j VTree.tnull)) →
      RepP P st (IVal.vaddr a) (VTree.tcon t ts)
  | vflt (a b : Nat) : P a → st[a]? = some (Cell.flt b) →
      RepP P st (IVal.vaddr a) (VTree.tflt b)
  | vstr (a : Nat) (s : List Nat) : P a → st[a]? = some (Cell.str s) →
      RepP P st (IVal.vaddr a) (VTree.tstr s)
  | vbig (a : Nat) (v : Int) : P a → st[a]? = some (Cell.big v) →
      RepP P st (IVal.vaddr a) (VTree.tbig v)
  | vptr (a p : Nat) : P a → st[a]? = some (Cell.ptr p) →
      RepP P st (IVal.vaddr a) (VTree.tptr p)
  | vmptr (a : Nat) (bs : List Nat) : P a → st[a]? = some (Cell.mptr bs) →
      RepP P st (IVal.vaddr a) (VTree.tmptr bs)
  | vbits8 (a v : Nat) : P a → st[a]? = some (Cell.bits8 v) →
      RepP P st (IVal.vaddr a) (VTree.tbits8 v)
  | vbits16 (a v : Nat) : P a → st[a]? = some (Cell.bits16 v) →
      RepP P st (IVal.vaddr a) (VTree.tbits16 v)
  | vbits32 (a v : Nat) : P a → st[a]? = some (Cell.bits32 v) →
      RepP P st (IVal.vaddr a) (VTree.tbits32 v)
  | vbits64 (a v : Nat) : P a → st[a]? = some (Cell.bits64 v) →
      RepP P st (IVal.vaddr a) (VTree.tbits64 v)
  | vrawdata (a : Nat) (bs : List Nat) : P a → st[a]? = some (Cell.rawdata bs) →
      RepP P st (IVal.vaddr a) (VTree.trawdata bs)

/-- Filling consecutive slots of `l` from index `i` with the values `ys`
(the accumulated effect of the `updateConArg` writes). -/
def setFrom (l : List IVal) (i : Nat) : List IVal → List IVal
  | [] => l
  | y :: ys => setFrom (l.set i y) (i+1) ys

/-- The specification a recursive call of `doCopyTo` must satisfy, at a
given fuel: on any value representing a tree of smaller height, it
produces a copy representing the same tree, only appends to the store,
and the copy's representation only visits old addresses the original
visited plus the freshly appended ones. -/
def CopySpec (fuel : Nat) : Prop :=
  ∀ (P : Nat → Prop) (st : Store) (x : IVal) (tt : VTree),
    (∀ a, P a → a < st.length) → RepP P st x tt → VTree.height tt < fuel →
    ∃ st2 y, doCopyTo fuel st x = some (st2, y) ∧ st.length ≤ st2.length ∧
      (∀ a, a < st.length → st2[a]? = st[a]?) ∧
      RepP (fun a => P a ∨ (st.length ≤ a ∧ a < st2.length)) st2 y tt

/-! ## String slices (`idris_strTail`, `MKSTROFFc`) -/

/-- Modelled from `idris_utf8.c` (outside `src/`): the byte length of the
first UTF-8 code point of a string, read off its leading byte.  Only the
fact that it is some byte count matters to the slice invariant. -/
def idris_utf8_charlen (s : List Nat) : Nat :=
  match s with
  | [] => 1
  | b :: _ => if b < 128 then 1 else if b < 224 then 2 else if b < 240 then 3 else 4

/-- `GETSTR(x)`: the bytes of a string value.  For a `CT_STRING` cell the
inline buffer; for a `CT_STROFFSET` cell, `GETSTROFF` reads
`root->str->info.str + root->offset` — a single hop, assuming the slice
invariant. -/
def GETSTRbytes (st : Store) (v : IVal) : Option (List Nat) :=
  match v with
  | IVal.vaddr a =>
    match st[a]? with
    | some (Cell.str bs) => some bs
    | some (Cell.stroffset r off) =>
      match r with
      | IVal.vaddr ra =>
        match st[ra]? with
        | some (Cell.str bs) => some (bs.drop off)
        | _ => none
      | _ => none
    | _ => none
  | _ => none

/-- The root-finding loop of `idris_strTail`:
`while(root!=NULL && !ISSTR(root)) { offset += ...->offset; root = ...->str; }`
accumulating the byte offset.  Reading `info.str_offset` of a cell that
is neither a string nor a slice is undefined behavior (`none`); `fuel`
bounds the observed iterations. -/
def strRootWalk : Nat → Store → IVal → Nat → Option (IVal × Nat)
  | 0, _, _, _ => none
  | fuel+1, st, v, acc =>
    match v with
    | IVal.vnull => some (v, acc)
    | IVal.vaddr a =>
      match st[a]? with
      | some (Cell.str _) => some (v, acc)
      | some (Cell.stroffset r off) => strRootWalk fuel st r (acc + off)
      | _ => none
    | IVal.vint _ => none

/-- `MKSTROFFc(vm, off)`: allocate a fresh `CT_STROFFSET` cell carrying
the given root reference and byte offset. -/
def MKSTROFFc (st : Store) (root : IVal) (off : Nat) : Store × IVal :=
  (st ++ [Cell.stroffset root off], IVal.vaddr st.length)

/-- `idris_strTail(vm, str)`.  If `space(vm, sizeof(Closure)+sizeof(StrOffset))`
holds (passed in as `hasSpace`; the store model keeps the bump region
abstract), allocate a slice cell, walk to the root string flattening any
existing chain while accumulating the offset, and store
`(root, offset + utf8-length of the current first character)`.
Otherwise fall back to `MKSTR(vm, nstr + charlen)` — a fresh plain string
cell holding the tail bytes. -/
def idris_strTail (walkFuel : Nat) (hasSpace : Bool) (st : Store) (v : IVal) :
    Option (Store × IVal) :=
  if hasSpace then
    match strRootWalk walkFuel st v 0 with
    | none => none
    | some (root, off) =>
      match GETSTRbytes st v with
      | none => none
      | some bs =>
        some (st ++ [Cell.stroffset root (off + idris_utf8_charlen bs)],
          IVal.vaddr st.length)
  else
    match GETSTRbytes st v with
    | none => none
    | some bs =>
      some (st ++ [Cell.str (bs.drop (idris_utf8_charlen bs))],
        IVal.vaddr st.length)

/-- The value is a live `CT_STRING` cell. -/
def isStrCell (st : Store) (v : IVal) : Prop :=
  ∃ a bs, v = IVal.vaddr a ∧ st[a]? = some (Cell.str bs)

/-- The slice-root-flatness invariant for a string value: either a string
cell, or a slice whose `str` field references a string cell — never
another slice. -/
def flatVal (st : Store) (v : IVal) : Prop :=
  isStrCell st v ∨
  ∃ a r off, v = IVal.vaddr a ∧ st[a]? = some (Cell.stroffset r off) ∧
    isStrCell st r

/-! ## Lemmas and claim theorems -/

theorem roundSize_of_aligned {size : Nat} (h : size % 8 = 0) :
    roundSize size = size := by
  unfold roundSize
  simp [h]

theorem gcIter_shift (gc : AllocHeap → AllocHeap) (k : Nat) (st : AllocVM) :
    gcIter gc (k+1) st = gcIter gc k (gcStep gc st) := rfl

/-- One unfolding of `allocate` at positive fuel. -/
theorem allocate_step (gc : AllocHeap → AllocHeap) (fuel : Nat)
    (st : AllocVM) (size0 lock : Nat) :
    allocate gc (fuel+1) st size0 lock =
      if st.heap.next + (roundSize size0 + headerSize) < st.heap.hend then
        (some (st.heap.next + headerSize), bumpOk st size0)
      else allocate gc fuel (gcStep gc st) size0 0 := rfl

/-- Unfolding of `allocate` at positive fuel, failing fast path. -/
theorem allocate_fail_step (gc : AllocHeap → AllocHeap) (fuel : Nat)
    (st : AllocVM) (size0 lock : Nat) (h : ¬ fastOk st size0) :
    allocate gc (fuel+1) st size0 lock = allocate gc fuel (gcStep gc st) size0 0 := by
  unfold fastOk at h
  rw [allocate_step, if_neg h]

/-- Unfolding of `allocate` at positive fuel, successful fast path. -/
theorem allocate_ok_step (gc : AllocHeap → AllocHeap) (fuel : Nat)
    (st : AllocVM) (size0 lock : Nat) (h : fastOk st size0) :
    allocate gc (fuel+1) st size0 lock =
      (some (st.heap.next + headerSize), bumpOk st size0) := by
  unfold fastOk at h
  rw [allocate_step, if_pos h]

/-- The complete behavior of `allocate`, by induction on the number of
observed attempts: as long as the fast path keeps failing, `allocate`
keeps collecting and retrying — one more `idris_gc` per failed attempt,
without bound and with no failure report — and it returns a pointer as
soon as some number of collections has made the fast path succeed. -/
theorem allocate_characterization (gc : AllocHeap → AllocHeap) :
    ∀ (fuel : Nat) (st : AllocVM) (size0 lock : Nat),
      ((∀ k, k < fuel → ¬ fastOk (gcIter gc k st) size0) →
        allocate gc fuel st size0 lock = (none, gcIter gc fuel st)) ∧
      (∀ j, j < fuel → (∀ k, k < j → ¬ fastOk (gcIter gc k st) size0) →
        fastOk (gcIter gc j st) size0 →
        allocate gc fuel st size0 lock =
          (some ((gcIter gc j st).heap.next + headerSize),
           bumpOk (gcIter gc j st) size0)) := by
  intro fuel
  induction fuel with
  | zero =>
    intro st size0 lock
    exact ⟨fun _ => rfl, fun j hj => absurd hj (Nat.not_lt_zero j)⟩
  | succ n ih =>
    intro st size0 lock
    constructor
    · intro hfail
      rw [allocate_fail_step gc n st size0 lock (hfail 0 (Nat.succ_pos n))]
      have h1 := (ih (gcStep gc st) size0 0).1
      rw [h1 (fun k hk => hfail (k+1) (Nat.succ_lt_succ hk))]
      rfl
    · intro j hj hmin hok
      cases j with
      | zero =>
        exact allocate_ok_step gc n st size0 lock hok
      | succ j' =>
        rw [allocate_fail_step gc n st size0 lock (hmin 0 (Nat.succ_pos j'))]
        have h2 := (ih (gcStep gc st) size0 0).2 j' (Nat.lt_of_succ_lt_succ hj)
          (fun k hk => hmin (k+1) (Nat.succ_lt_succ hk)) hok
        exact h2

/-- C4, as stated, is false: with a collector that reclaims nothing
(everything reachable), a failing request of 8 bytes against a bump
region with 8 free bytes makes `allocate` collect and retry three times
within the first three observed attempts — after the first retry fails
there is a second (and third) GC-and-retry, and `allocate` has no
fatal/diagnostic branch at all (it is still retrying when the observation
ends). -/
theorem C4_second_retry_happens :
    allocate gcId 3 ⟨⟨0, 8⟩, 0⟩ 8 0 = (none, ⟨⟨0, 8⟩, 3⟩) := by decide

/-- C4 (amended): when the fast path of `allocate` fails, the code runs
one garbage collection and retries; if the retry fails it collects and
retries again, indefinitely — there is no "retry once then fatal"
behavior in `allocate`.  Formally, over any collector behavior `gc`:
while the fast path fails `allocate` performs exactly one collection per
failed attempt and keeps going (`none` = still retrying after `fuel`
attempts), and it succeeds exactly at the first attempt whose fast path
passes. -/
theorem C4_alloc_gc_retry :
    ∀ (gc : AllocHeap → AllocHeap) (fuel : Nat) (st : AllocVM) (size0 lock : Nat),
      ((∀ k, k < fuel → ¬ fastOk (gcIter gc k st) size0) →
        allocate gc fuel st size0 lock = (none, gcIter gc fuel st) ∧
        (gcIter gc fuel st).collections = st.collections + fuel) ∧
      (∀ j, j < fuel → (∀ k, k < j → ¬ fastOk (gcIter gc k st) size0) →
        fastOk (gcIter gc j st) size0 →
        allocate gc fuel st size0 lock =
          (some ((gcIter gc j st).heap.next + headerSize),
           bumpOk (gcIter gc j st) size0) ∧
        (gcIter gc j st).collections = st.collections + j) := by
  intro gc fuel st size0 lock
  have hcoll : ∀ (k : Nat) (s : AllocVM),
      (gcIter gc k s).collections = s.collections + k := by
    intro k
    induction k with
    | zero => intro s; rfl
    | succ m ihm =>
      intro s
      rw [gcIter_shift, ihm (gcStep gc s)]
      show s.collections + 1 + m = s.collections + (m + 1)
      omega
  refine ⟨fun hfail => ⟨(allocate_characterization gc fuel st size0 lock).1 hfail,
      hcoll fuel st⟩,
    fun j hj hmin hok =>
      ⟨(allocate_characterization gc fuel st size0 lock).2 j hj hmin hok, hcoll j st⟩⟩

/-- Witness for `C4_alloc_gc_retry`: a concrete run in which the first
fast path fails, one collection (here `gcFrees`) makes room, and the
retry succeeds; both hypotheses are discharged at the concrete state. -/
theorem C4_alloc_gc_retry_witness :
    allocate gcFrees 2 ⟨⟨0, 8⟩, 0⟩ 8 0 = (some 8, ⟨⟨16, 100⟩, 1⟩) := by
  have h := (C4_alloc_gc_retry gcFrees 2 ⟨⟨0, 8⟩, 0⟩ 8 0).2 1 (by decide)
    (by intro k hk; interval_cases k; decide) (by decide)
  exact h.1

/-- C5, as stated, is false: the fast-path test is the strict
`heap.next + chunk_size < heap.end`, so a request of exactly
`end - next - header_size` bytes (here `24 - 0 - 8 = 16`, a multiple of
8) does not succeed — it triggers a garbage collection. -/
theorem C5_exact_fit_triggers_gc :
    allocate gcId 1 ⟨⟨0, 24⟩, 0⟩ 16 0 = (none, ⟨⟨0, 24⟩, 1⟩) := by decide

/-- C5 (amended): for an 8-byte-aligned request, the fast path succeeds
without any collection iff `next + size + header_size < end` strictly; a
request of exactly `end - next - header_size` bytes fails the test and
triggers a garbage collection, and (when `end - next` is a multiple of 8)
the largest request that succeeds on the fast path is
`end - next - header_size - 8`. -/
theorem C5_exact_fit_boundary :
    ∀ (gc : AllocHeap → AllocHeap) (st : AllocVM) (size fuel lock : Nat),
      size % 8 = 0 →
      (st.heap.next + size + headerSize < st.heap.hend →
        allocate gc (fuel+1) st size lock =
          (some (st.heap.next + headerSize),
           ⟨⟨st.heap.next + size + headerSize, st.heap.hend⟩, st.collections⟩)) ∧
      (st.heap.hend = st.heap.next + size + headerSize →
        allocate gc 1 st size lock = (none, gcStep gc st)) := by
  intro gc st size fuel lock hsize
  constructor
  · intro hlt
    have hfast : fastOk st size := by
      unfold fastOk
      rw [roundSize_of_aligned hsize]
      omega
    rw [allocate_ok_step gc fuel st size lock hfast]
    unfold bumpOk
    rw [roundSize_of_aligned hsize]
    rfl
  · intro heq
    have hfail : ¬ fastOk st size := by
      unfold fastOk
      rw [roundSize_of_aligned hsize]
      omega
    rw [allocate_fail_step gc 0 st size lock hfail]
    rfl

/-- Witness for `C5_exact_fit_boundary` at a concrete heap: with
`next = 0`, `end = 24`, a request of 8 bytes (`0 + 8 + 8 < 24`) succeeds
on the fast path, and a request of 16 bytes (`24 = 0 + 16 + 8`) triggers
a collection. -/
theorem C5_exact_fit_boundary_witness :
    allocate gcId 1 ⟨⟨0, 24⟩, 0⟩ 8 0 = (some 8, ⟨⟨16, 24⟩, 0⟩) ∧
    allocate gcId 1 ⟨⟨0, 24⟩, 0⟩ 16 0 = (none, gcStep gcId ⟨⟨0, 24⟩, 0⟩) := by
  refine ⟨?_, ?_⟩
  · have h := (C5_exact_fit_boundary gcId ⟨⟨0, 24⟩, 0⟩ 8 0 0 (by decide)).1 (by decide)
    exact h
  · have h := (C5_exact_fit_boundary gcId ⟨⟨0, 24⟩, 0⟩ 16 0 0 (by decide)).2 (by decide)
    exact h

/-- C3, as stated, is false: `idris_requireAlloc(16)` on a region with 24
free bytes performs no collection (`0 + 16 < 24`), yet two guarded
allocations of 8 requested bytes each — totaling `16 ≤ 16` — trigger a
collection inside the window, because each allocation also consumes an
8-byte size header that `idris_requireAlloc`'s check does not account
for. -/
theorem C3_gc_inside_window :
    ((allocSeq gcId 1 (idris_requireAlloc gcId ⟨⟨0, 24⟩, 0⟩ 16) [8, 8]).2).collections
      = 1 := by decide

/-- No-collection window lemma: if the free space strictly exceeds the
total chunk footprint of the requested sizes, every guarded allocation in
the sequence succeeds on the fast path, no collection happens, and `next`
advances by exactly the total footprint. -/
theorem allocSeq_no_gc (gc : AllocHeap → AllocHeap) (fuel : Nat) :
    ∀ (sizes : List Nat) (st : AllocVM),
      st.heap.next + chunkSizes sizes < st.heap.hend →
      (allocSeq gc (fuel+1) st sizes).2 =
        ⟨⟨st.heap.next + chunkSizes sizes, st.heap.hend⟩, st.collections⟩ ∧
      ((allocSeq gc (fuel+1) st sizes).1.all Option.isSome) = true := by
  intro sizes
  induction sizes with
  | nil =>
    intro st hlt
    refine ⟨?_, rfl⟩
    show st = _
    have h0 : chunkSizes [] = 0 := rfl
    rw [h0]
    cases st with
    | mk heap coll =>
      cases heap with
      | mk nx he => simp
  | cons s rest ihr =>
    intro st hlt
    have hchunks : chunkSizes (s :: rest) = (roundSize s + headerSize) + chunkSizes rest := by
      unfold chunkSizes
      simp [List.map_cons, List.sum_cons]
    have hfast : fastOk st s := by
      unfold fastOk
      rw [hchunks] at hlt
      omega
    have hstep := allocate_ok_step gc fuel st s 1 hfast
    have hnext : (bumpOk st s).heap.next + chunkSizes rest < (bumpOk st s).heap.hend := by
      show st.heap.next + (roundSize s + headerSize) + chunkSizes rest < st.heap.hend
      rw [hchunks] at hlt
      omega
    have ihrest := ihr (bumpOk st s) hnext
    have hseq : allocSeq gc (fuel+1) st (s :: rest) =
        ((allocate gc (fuel+1) st s 1).1 ::
          (allocSeq gc (fuel+1) (allocate gc (fuel+1) st s 1).2 rest).1,
         (allocSeq gc (fuel+1) (allocate gc (fuel+1) st s 1).2 rest).2) := rfl
    rw [hseq, hstep]
    refine ⟨?_, ?_⟩
    · show (allocSeq gc (fuel+1) (bumpOk st s) rest).2 = _
      rw [ihrest.1, hchunks]
      show (⟨⟨(bumpOk st s).heap.next + chunkSizes rest, st.heap.hend⟩, st.collections⟩ : AllocVM) = _
      have : (bumpOk st s).heap.next + chunkSizes rest =
          st.heap.next + (roundSize s + headerSize + chunkSizes rest) := by
        show st.heap.next + (roundSize s + headerSize) + chunkSizes rest = _
        omega
      rw [this]
    · show (some (st.heap.next + headerSize) ::
          (allocSeq gc (fuel+1) (bumpOk st s) rest).1).all Option.isSome = true
      simp only [List.all_cons, Bool.and_eq_true]
      exact ⟨rfl, ihrest.2⟩

/-- C3 (amended): if `require_alloc(n)` finds `next + n < end` (so the
up-front check passes with no collection) and the guarded allocations in
the window have a total chunk footprint — requested sizes rounded up to 8
plus the 8-byte header each — of at most `n`, then no garbage collection
occurs anywhere inside the window (the collection counter is unchanged at
`done_alloc`), every allocation succeeds on the fast path, and the heap
region is only bumped (`end` fixed, `next` advanced by exactly the
footprint), so every interior pointer obtained inside the window is still
valid at `done_alloc`.  The claim's own bound — requested sizes totaling
at most `n`, ignoring rounding and headers — is refuted by
`C3_gc_inside_window`. -/
theorem C3_require_alloc_window :
    ∀ (gc : AllocHeap → AllocHeap) (st : AllocVM) (n : Nat) (sizes : List Nat) (fuel : Nat),
      st.heap.next + n < st.heap.hend →
      chunkSizes sizes ≤ n →
      idris_requireAlloc gc st n = st ∧
      (idris_doneAlloc (allocSeq gc (fuel+1) st sizes).2).collections = st.collections ∧
      (idris_doneAlloc (allocSeq gc (fuel+1) st sizes).2).heap =
        ⟨st.heap.next + chunkSizes sizes, st.heap.hend⟩ ∧
      ((allocSeq gc (fuel+1) st sizes).1.all Option.isSome) = true := by
  intro gc st n sizes fuel hroom hfit
  have hreq : idris_requireAlloc gc st n = st := by
    unfold idris_requireAlloc
    rw [if_neg]
    intro hcontra
    exact hcontra hroom
  have hwin := allocSeq_no_gc gc fuel sizes st (by omega)
  refine ⟨hreq, ?_, ?_, hwin.2⟩
  · show (allocSeq gc (fuel+1) st sizes).2.collections = st.collections
    rw [hwin.1]
  · show (allocSeq gc (fuel+1) st sizes).2.heap = _
    rw [hwin.1]

/-- Witness for `C3_require_alloc_window`: a window reserving 32 bytes on
a region with 33 free bytes, then two guarded 8-byte allocations (chunk
footprint `16 + 16 = 32 ≤ 32`): no collection, `next` advanced by 32,
both pointers obtained. -/
theorem C3_require_alloc_window_witness :
    idris_requireAlloc gcId ⟨⟨0, 33⟩, 0⟩ 32 = ⟨⟨0, 33⟩, 0⟩ ∧
    (idris_doneAlloc (allocSeq gcId 1 ⟨⟨0, 33⟩, 0⟩ [8, 8]).2).collections = 0 ∧
    (idris_doneAlloc (allocSeq gcId 1 ⟨⟨0, 33⟩, 0⟩ [8, 8]).2).heap = ⟨32, 33⟩ ∧
    ((allocSeq gcId 1 ⟨⟨0, 33⟩, 0⟩ [8, 8]).1.all Option.isSome) = true := by
  have h := C3_require_alloc_window gcId ⟨⟨0, 33⟩, 0⟩ 32 [8, 8] 0
    (by decide) (by decide)
  have h32 : chunkSizes [8, 8] = 32 := by decide
  refine ⟨h.1, h.2.1, ?_, h.2.2.2⟩
  have := h.2.2.1
  rw [h32] at this
  exact this

theorem digitsLoop_append (rest : List Nat)
    (hrest : rest = [] ∨ ∃ c rs, rest = c :: rs ∧ ¬ (48 ≤ c ∧ c ≤ 57)) :
    ∀ (ds : List Nat) (acc : Int), (∀ c ∈ ds, 48 ≤ c ∧ c ≤ 57) →
      digitsLoop (ds ++ rest) acc = (ds.foldl digitStep acc, rest) := by
  intro ds
  induction ds with
  | nil =>
    intro acc _
    rcases hrest with h | ⟨c, rs, hcr, hnd⟩
    · rw [h]; rfl
    · rw [hcr]
      show digitsLoop (c :: rs) acc = (acc, c :: rs)
      unfold digitsLoop
      rw [if_neg hnd]
  | cons d ds ihd =>
    intro acc hds
    have hd : 48 ≤ d ∧ d ≤ 57 := hds d (List.mem_cons_self d ds)
    show digitsLoop (d :: (ds ++ rest)) acc = _
    unfold digitsLoop
    rw [if_pos hd]
    rw [ihd (digitStep acc d) (fun c hc => hds c (List.mem_cons_of_mem d hc))]
    rfl

theorem decimalVal_nonneg_acc :
    ∀ (ds : List Nat) (acc : Int), 0 ≤ acc → (∀ c ∈ ds, 48 ≤ c ∧ c ≤ 57) →
      0 ≤ ds.foldl digitStep acc := by
  intro ds
  induction ds with
  | nil => intro acc hacc _; exact hacc
  | cons d ds ihd =>
    intro acc hacc hds
    have hd : 48 ≤ d ∧ d ≤ 57 := hds d (List.mem_cons_self d ds)
    show 0 ≤ ds.foldl digitStep (digitStep acc d)
    refine ihd _ ?_ (fun c hc => hds c (List.mem_cons_of_mem d hc))
    have h48 : (48 : Int) ≤ (d : Int) := by exact_mod_cast hd.1
    unfold digitStep
    nlinarith

/-- C9: `idris_castStrInt` returns the parsed decimal value when the
digit run is followed only by end-of-string, `'\n'` or `'\r'` (for values
representable in `i_int`; libc's `strtol` saturates beyond that), and
returns 0 for a malformed remainder; in particular
`str_to_int("42") = 42` and `str_to_int("42x") = 0`. -/
theorem C9_castStrInt :
    (∀ (ds rest : List Nat), ds ≠ [] → (∀ c ∈ ds, 48 ≤ c ∧ c ≤ 57) →
      (rest = [] ∨ ∃ c rs, rest = c :: rs ∧ (c = 10 ∨ c = 13)) →
      decimalVal ds ≤ longMax →
      idris_castStrInt (ds ++ rest) = decimalVal ds) ∧
    idris_castStrInt [52, 50] = 42 ∧
    idris_castStrInt [52, 50, 120] = 0 := by
  refine ⟨?_, by decide, by decide⟩
  intro ds rest hne hds hrest hbound
  obtain ⟨d, ds', rfl⟩ : ∃ d ds', ds = d :: ds' := by
    cases ds with
    | nil => exact absurd rfl hne
    | cons d ds' => exact ⟨d, ds', rfl⟩
  have hd : 48 ≤ d ∧ d ≤ 57 := hds d (List.mem_cons_self d ds')
  have hnd : ∀ c, (48 ≤ c ∧ c ≤ 57) → isSpaceByte c = false := by
    intro c hc
    unfold isSpaceByte
    simp only [Bool.or_eq_false_iff, decide_eq_false_iff_not]
    omega
  have hrest' : rest = [] ∨ ∃ c rs, rest = c :: rs ∧ ¬ (48 ≤ c ∧ c ≤ 57) := by
    rcases hrest with h | ⟨c, rs, hcr, hterm⟩
    · exact Or.inl h
    · exact Or.inr ⟨c, rs, hcr, by omega⟩
  have hloop := digitsLoop_append rest hrest' (d :: ds') 0 hds
  have hdrop : ((d :: ds') ++ rest).dropWhile isSpaceByte = (d :: ds') ++ rest := by
    show ((d :: (ds' ++ rest)).dropWhile isSpaceByte) = d :: (ds' ++ rest)
    rw [List.dropWhile_cons_of_neg]
    rw [hnd d hd]
    exact Bool.false_ne_true
  have hnum : strtolNum ((d :: ds') ++ rest) (d :: (ds' ++ rest)) false =
      (clampLong (decimalVal (d :: ds')), rest) := by
    simp only [strtolNum]
    rw [if_pos hd]
    simp only [Bool.false_eq_true, if_false]
    have happ : d :: (ds' ++ rest) = (d :: ds') ++ rest := rfl
    rw [happ, hloop]
    rfl
  have hval : strtol10 ((d :: ds') ++ rest) = (clampLong (decimalVal (d :: ds')), rest) := by
    unfold strtol10
    rw [hdrop]
    split
    · rename_i s2 heq
      injection heq with h1 _
      omega
    · rename_i s2 heq
      injection heq with h1 _
      omega
    · exact hnum
  have hclamp : clampLong (decimalVal (d :: ds')) = decimalVal (d :: ds') := by
    unfold clampLong
    have hnn : 0 ≤ decimalVal (d :: ds') := decimalVal_nonneg_acc (d :: ds') 0 le_rfl hds
    rw [if_neg (by omega), if_neg (by
      unfold longMin
      omega)]
  unfold idris_castStrInt
  rw [hval]
  simp only [hclamp]
  rcases hrest with h | ⟨c, rs, hcr, hterm⟩
  · rw [h]
  · rw [hcr]
    show (if c = 10 ∨ c = 13 then decimalVal (d :: ds') else 0) = decimalVal (d :: ds')
    rw [if_pos hterm]

/-- Witness for the general part of `C9_castStrInt`: `"42\n"` parses to
42 with all hypotheses discharged at the concrete bytes. -/
theorem C9_castStrInt_witness : idris_castStrInt [52, 50, 10] = 42 := by
  have h := C9_castStrInt.1 [52, 50] [10] (by decide) (by decide)
    (Or.inr ⟨10, [], rfl, Or.inl rfl⟩) (by decide)
  have happ : ([52, 50] ++ [10] : List Nat) = [52, 50, 10] := rfl
  have h42 : decimalVal [52, 50] = 42 := by decide
  rw [happ, h42] at h
  exact h

theorem compactLoop_length : ∀ (fuel : Nat) (slots : List MsgSlot) (i : Nat),
    (compactLoop fuel slots i).length = slots.length := by
  intro fuel
  induction fuel with
  | zero => intro slots i; rfl
  | succ n ih =>
    intro slots i
    show (compactLoop n
      (if i + 1 ≠ inboxCap then slots.set i (slots.getD (i+1) (none, none)) else slots)
      (i+1)).length = _
    rw [ih]
    split
    · exact List.length_set slots i _
    · rfl

/-- What the compaction loop does to each slot: within the compacted
range `[i, i+fuel)` (and away from the skipped final slot) each slot gets
its successor's contents; everything else is untouched. -/
theorem compactLoop_getElem :
    ∀ (fuel : Nat) (slots : List MsgSlot) (i : Nat),
      slots.length = inboxCap → i + fuel ≤ inboxCap →
      ∀ j, (compactLoop fuel slots i)[j]? =
        if i ≤ j ∧ j < i + fuel ∧ j + 1 ≠ inboxCap then slots[j + 1]? else slots[j]? := by
  intro fuel
  induction fuel with
  | zero =>
    intro slots i _ _ j
    rw [if_neg (by omega)]
    rfl
  | succ n ih =>
    intro slots i hlen hle j
    show (compactLoop n
      (if i + 1 ≠ inboxCap then slots.set i (slots.getD (i+1) (none, none)) else slots)
      (i+1))[j]? = _
    by_cases hskip : i + 1 ≠ inboxCap
    · rw [if_pos hskip]
      have hlen' : (slots.set i (slots.getD (i+1) (none, none))).length = inboxCap := by
        rw [List.length_set]; exact hlen
      rw [ih _ (i+1) hlen' (by omega) j]
      by_cases hcond : i + 1 ≤ j ∧ j < i + 1 + n ∧ j + 1 ≠ inboxCap
      · rw [if_pos hcond, if_pos (by omega),
          List.getElem?_set_ne (by omega : i ≠ j + 1)]
      · rw [if_neg hcond]
        by_cases hji : j = i
        · subst hji
          rw [List.getElem?_set_self (by omega), if_pos ⟨le_refl j, by omega, hskip⟩]
          have hin : j + 1 < slots.length := by omega
          rw [List.getD_eq_getElem?_getD, List.getElem?_eq_getElem hin]
          rfl
        · rw [List.getElem?_set_ne (fun h => hji h.symm), if_neg (by omega)]
    · rw [if_neg hskip]
      rw [ih slots (i+1) hlen (by omega) j, if_neg (by omega), if_neg (by omega)]

/-- What `getScan` returns: the first slot at index `≥ i` (within `fuel`
steps) whose sender matches the filter. -/
theorem getScan_spec (st : VMIn) (f : Option Nat) :
    ∀ (fuel i k : Nat) (slot : MsgSlot),
      getScan st f fuel i = some (k, slot) →
      i ≤ k ∧ k < i + fuel ∧ slot = st.slots.getD k (none, none) ∧
      (f = none ∨ f = slot.1) ∧
      ∀ j, i ≤ j → j < k → ¬ (f = none ∨ f = (st.slots.getD j (none, none)).1) := by
  intro fuel
  induction fuel with
  | zero =>
    intro i k slot h
    exact absurd h (by simp [getScan])
  | succ n ih =>
    intro i k slot h
    by_cases hm : f = none ∨ f = (st.slots.getD i (none, none)).1
    · have hstep : getScan st f (n+1) i = some (i, st.slots.getD i (none, none)) := by
        show (if f = none ∨ f = (st.slots.getD i (none, none)).1
              then some (i, st.slots.getD i (none, none))
              else getScan st f n (i+1)) = _
        rw [if_pos hm]
      have h2 := hstep.symm.trans h
      injection h2 with h3
      obtain ⟨h4, h5⟩ := Prod.mk.inj h3
      subst h4
      subst h5
      exact ⟨le_refl i, by omega, rfl, hm, fun j hij hjk => absurd hjk (by omega)⟩
    · have hstep : getScan st f (n+1) i = getScan st f n (i+1) := by
        show (if f = none ∨ f = (st.slots.getD i (none, none)).1
              then some (i, st.slots.getD i (none, none))
              else getScan st f n (i+1)) = _
        rw [if_neg hm]
      rw [hstep] at h
      obtain ⟨h1, h2, h3, h4, h5⟩ := ih (i+1) k slot h
      refine ⟨by omega, by omega, h3, h4, fun j hij hjk => ?_⟩
      by_cases hji : j = i
      · subst hji; exact hm
      · exact h5 j (by omega) hjk

/-- A send to an active machine with room appends the message at the
`inbox_write` cursor and advances it. -/
theorem send_some (st : VMIn) (s m : Nat) (hact : st.active = true)
    (hw : st.w < inboxCap) :
    idris_sendMessage st s m =
      some (⟨true, st.slots.set st.w (some s, some m), st.w + 1, st.copies + 1⟩, 1) := by
  unfold idris_sendMessage
  rw [hact]
  rw [if_neg (by simp), if_neg (by omega : ¬ inboxCap ≤ st.w)]

/-- Appending at the cursor extends the pending region by that slot. -/
theorem take_set_cursor (slots : List MsgSlot) (w : Nat) (v : MsgSlot)
    (hw : w < slots.length) :
    (slots.set w v).take (w + 1) = slots.take w ++ [v] := by
  apply List.ext_getElem?
  intro n
  rw [List.getElem?_take, List.getElem?_append]
  have hlt : (slots.take w).length = w := by
    rw [List.length_take]; exact Nat.min_eq_left (by omega)
  rcases Nat.lt_trichotomy n w with hn | hn | hn
  · rw [if_pos (by omega), if_pos (by omega : n < (slots.take w).length),
      List.getElem?_set_ne (by omega : w ≠ n), List.getElem?_take, if_pos hn]
  · subst hn
    rw [if_pos (by omega), if_neg (by omega : ¬ n < (slots.take n).length),
      List.getElem?_set_self hw, hlt]
    simp
  · rw [if_neg (by omega), if_neg (by omega : ¬ n < (slots.take w).length), hlt]
    have : n - w ≥ 1 := by omega
    match n, this with
    | n+1, _ =>
      have h1 : n + 1 - w ≥ 1 := by omega
      cases hnw : n + 1 - w with
      | zero => omega
      | succ q => simp

/-- The full description of a successful `idris_recvMessageFrom`: the
returned `Msg` is the lowest-indexed pending slot matching the filter,
the cursor drops by one, and the new pending region is the old one with
that slot removed (order preserved). -/
theorem recv_some (st : VMIn) (f : Option Nat) (st2 : VMIn) (slot : MsgSlot)
    (hlen : st.slots.length = inboxCap) (hw : st.w ≤ inboxCap)
    (h : idris_recvMessageFrom st f = some (st2, slot)) :
    ∃ k, k < st.w ∧ slot = st.slots.getD k (none, none) ∧
      (f = none ∨ f = slot.1) ∧
      (∀ j, j < k → ¬ (f = none ∨ f = (st.slots.getD j (none, none)).1)) ∧
      st2.active = st.active ∧ st2.copies = st.copies ∧
      st2.w = st.w - 1 ∧ st2.slots.length = inboxCap ∧
      pendingList st2 = (pendingList st).take k ++ (pendingList st).drop (k + 1) ∧
      (∀ n, n < st.w - 1 → st2.slots.getD n (none, none) =
        if k ≤ n then st.slots.getD (n + 1) (none, none)
        else st.slots.getD n (none, none)) := by
  unfold idris_recvMessageFrom at h
  cases hg : idris_getMessageFrom st f with
  | none => rw [hg] at h; exact absurd h (by simp)
  | some p =>
    obtain ⟨k, slotv⟩ := p
    rw [hg] at h
    simp only [Option.some_inj] at h
    obtain ⟨hst2, hslot⟩ := Prod.mk.inj h.symm
    obtain ⟨hk0, hkw, hslotv, hmatch, hmin⟩ :=
      getScan_spec st f st.w 0 k slotv hg
    subst hslot
    refine ⟨k, by omega, hslotv, hmatch, fun j hj => hmin j (by omega) hj,
      ?_, ?_, ?_, ?_, ?_, ?_⟩
    · rw [hst2]
    · rw [hst2]
    · rw [hst2]
    · rw [hst2]
      show ((compactLoop (st.w - k) st.slots k).set st.w (none, none)).length = inboxCap
      rw [List.length_set, compactLoop_length]
      exact hlen
    · -- the compacted pending region is the old one with slot k removed
      rw [hst2]
      show ((compactLoop (st.w - k) st.slots k).set st.w (none, none)).take (st.w - 1) =
        (pendingList st).take k ++ (pendingList st).drop (k + 1)
      apply List.ext_getElem?
      intro n
      have hchar := compactLoop_getElem (st.w - k) st.slots k hlen (by omega)
      have hlen1 : (compactLoop (st.w - k) st.slots k).length = inboxCap := by
        rw [compactLoop_length]; exact hlen
      have hlenTk : ((pendingList st).take k).length = k := by
        unfold pendingList
        rw [List.length_take, List.length_take]
        have : st.w ⊓ st.slots.length = st.w := Nat.min_eq_left (by omega)
        rw [this]
        exact Nat.min_eq_left (by omega)
      have hlenDr : ((pendingList st).drop (k + 1)).length = st.w - (k + 1) := by
        unfold pendingList
        rw [List.length_drop, List.length_take]
        have : st.w ⊓ st.slots.length = st.w := Nat.min_eq_left (by omega)
        rw [this]
      rw [List.getElem?_take, List.getElem?_append, hlenTk]
      by_cases hn : n < st.w - 1
      · rw [if_pos hn]
        rw [List.getElem?_set_ne (by omega : st.w ≠ n), hchar n]
        by_cases hnk : n < k
        · rw [if_neg (by omega), if_pos hnk, List.getElem?_take, if_pos hnk]
          unfold pendingList
          rw [List.getElem?_take, if_pos (by omega : n < st.w)]
        · rw [if_pos ⟨by omega, by omega, by omega⟩, if_neg hnk,
            List.getElem?_drop]
          unfold pendingList
          rw [List.getElem?_take, if_pos (by omega)]
          congr 1
          omega
      · rw [if_neg hn]
        by_cases hnk : n < k
        · omega
        · rw [if_neg hnk, List.getElem?_eq_none (by rw [hlenDr]; omega)]
    · -- pointwise description of the compacted slots
      intro n hn
      rw [hst2]
      show ((compactLoop (st.w - k) st.slots k).set st.w (none, none)).getD n (none, none) = _
      rw [List.getD_eq_getElem?_getD, List.getElem?_set_ne (by omega : st.w ≠ n),
        compactLoop_getElem (st.w - k) st.slots k hlen (by omega) n]
      by_cases hnk : k ≤ n
      · rw [if_pos ⟨hnk, by omega, by omega⟩, if_pos hnk, List.getD_eq_getElem?_getD]
      · rw [if_neg (by omega), if_neg hnk, List.getD_eq_getElem?_getD]

theorem getD_set_ne_slot (l : List MsgSlot) (i j : Nat) (v d : MsgSlot) (h : i ≠ j) :
    (l.set i v).getD j d = l.getD j d := by
  rw [List.getD_eq_getElem?_getD, List.getD_eq_getElem?_getD, List.getElem?_set_ne h]

theorem getD_set_self_slot (l : List MsgSlot) (i : Nat) (v d : MsgSlot)
    (h : i < l.length) :
    (l.set i v).getD i d = v := by
  rw [List.getD_eq_getElem?_getD, List.getElem?_set_self h]
  rfl

theorem fromSender_append (S : Nat) (l1 l2 : List MsgSlot) :
    fromSender S (l1 ++ l2) = fromSender S l1 ++ fromSender S l2 :=
  List.filterMap_append l1 l2 _

theorem fromSender_eq_nil (S : Nat) :
    ∀ (l : List MsgSlot), (∀ j, j < l.length → (l.getD j (none, none)).1 ≠ some S) →
      fromSender S l = [] := by
  intro l
  induction l with
  | nil => intro _; rfl
  | cons p t iht =>
    intro hj
    have hp : p.1 ≠ some S := hj 0 (by simp)
    show List.filterMap _ (p :: t) = []
    rw [List.filterMap_cons]
    rw [if_neg hp]
    exact iht (fun j hjt => hj (j+1) (by simp; omega))

theorem fromSender_cons (S : Nat) (p : MsgSlot) (t : List MsgSlot) :
    fromSender S (p :: t) = fromSender S [p] ++ fromSender S t := by
  unfold fromSender
  rw [List.filterMap_cons, List.filterMap_cons, List.filterMap_nil]
  cases hp : (if p.1 = some S then some p.2 else (none : Option (Option Nat))) with
  | none => simp
  | some v => simp

/-- Splitting the per-sender pending messages around an index. -/
theorem fromSender_split (S : Nat) (l : List MsgSlot) (k : Nat) (hk : k < l.length) :
    fromSender S l =
      fromSender S (l.take k) ++ fromSender S [l.getD k (none, none)] ++
        fromSender S (l.drop (k + 1)) := by
  conv_lhs => rw [← List.take_append_drop k l]
  rw [fromSender_append, List.drop_eq_getElem_cons hk, fromSender_cons]
  have hgd : l.getD k (none, none) = l[k] := by
    rw [List.getD_eq_getElem?_getD, List.getElem?_eq_getElem hk]
    rfl
  rw [hgd, List.append_assoc]

theorem fromSender_single_eq (S : Nat) (p : MsgSlot) (h : p.1 = some S) :
    fromSender S [p] = [p.2] := by
  unfold fromSender
  rw [List.filterMap_cons, if_pos h]
  rfl

theorem fromSender_single_ne (S : Nat) (p : MsgSlot) (h : p.1 ≠ some S) :
    fromSender S [p] = [] := by
  unfold fromSender
  rw [List.filterMap_cons, if_neg h]
  rfl

theorem getD_take_lt (l : List MsgSlot) (n k : Nat) (d : MsgSlot) (h : k < n) :
    (l.take n).getD k d = l.getD k d := by
  rw [List.getD_eq_getElem?_getD, List.getD_eq_getElem?_getD, List.getElem?_take,
    if_pos h]

/-- The inbox-shape part of `InvIn` gives the pending region length. -/
theorem pendingList_length (st : VMIn) (hlen : st.slots.length = inboxCap)
    (hw : st.w ≤ inboxCap) : (pendingList st).length = st.w := by
  unfold pendingList
  rw [List.length_take, hlen]
  exact Nat.min_eq_left hw

/-- What one successful receive does to the per-sender pending queues:
the returned message is exactly the head removed from its own sender's
queue, and every sender's queue satisfies
`pending-before = received ++ pending-after`. -/
theorem recv_pendingFrom (st : VMIn) (f : Option Nat) (st2 : VMIn) (slot : MsgSlot)
    (hInv : InvIn st) (h : idris_recvMessageFrom st f = some (st2, slot)) :
    ∀ S, pendingFrom S st = fromSender S [slot] ++ pendingFrom S st2 := by
  obtain ⟨hact, hlen, hw, hpend⟩ := hInv
  obtain ⟨k, hkw, hslot, hmatch, hmin, _, _, _, _, hplist, _⟩ :=
    recv_some st f st2 slot hlen hw h
  intro S
  have hlenPend : (pendingList st).length = st.w := pendingList_length st hlen hw
  have hkPend : k < (pendingList st).length := by omega
  have hgdPend : (pendingList st).getD k (none, none) = slot := by
    rw [hslot]
    exact getD_take_lt st.slots st.w k (none, none) hkw
  have hsplit := fromSender_split S (pendingList st) k hkPend
  rw [hgdPend] at hsplit
  have hpend2 : pendingFrom S st2 =
      fromSender S ((pendingList st).take k) ++
        fromSender S ((pendingList st).drop (k+1)) := by
    unfold pendingFrom
    rw [hplist, fromSender_append]
  by_cases hS : slot.1 = some S
  · -- the removed slot is from sender S: the take-part has no S-slots
    have htake : fromSender S ((pendingList st).take k) = [] := by
      cases Nat.eq_zero_or_pos k with
      | inl hk0 =>
        subst hk0
        rfl
      | inr hkpos =>
        apply fromSender_eq_nil
        intro j hj
        have hjk : j < k := by
          have : ((pendingList st).take k).length ≤ k := by
            rw [List.length_take]
            exact Nat.min_le_left k _
          omega
        rw [getD_take_lt _ _ _ _ hjk]
        unfold pendingList
        rw [getD_take_lt _ _ _ _ (by omega : j < st.w)]
        have hfx : f ≠ none := by
          intro hfn
          exact hmin 0 hkpos (Or.inl hfn)
        have hfs : f = some S := by
          rcases hmatch with hfn | hfs
          · exact absurd hfn hfx
          · rw [hfs, hS]
        intro hcontra
        exact hmin j hjk (Or.inr (by rw [hfs, ← hcontra]))
    show fromSender S (pendingList st) = fromSender S [slot] ++ pendingFrom S st2
    rw [hsplit, hpend2, htake]
    simp
  · -- the removed slot is from another sender: it contributes nothing
    have hnone : fromSender S [slot] = [] := fromSender_single_ne S slot hS
    show fromSender S (pendingList st) = fromSender S [slot] ++ pendingFrom S st2
    rw [hsplit, hpend2, hnone]
    simp

/-- What one send does to the per-sender pending queues. -/
theorem send_pendingFrom (st : VMIn) (s m : Nat)
    (hlen : st.slots.length = inboxCap) (hw : st.w < inboxCap) :
    ∀ S, pendingFrom S
        ⟨true, st.slots.set st.w (some s, some m), st.w + 1, st.copies + 1⟩ =
      pendingFrom S st ++ (if s = S then [some m] else []) := by
  intro S
  unfold pendingFrom pendingList
  show fromSender S ((st.slots.set st.w (some s, some m)).take (st.w + 1)) = _
  rw [take_set_cursor st.slots st.w (some s, some m) (by omega), fromSender_append]
  congr 1
  by_cases hsS : s = S
  · rw [fromSender_single_eq S (some s, some m) (by rw [hsS]), if_pos hsS]
  · rw [fromSender_single_ne S (some s, some m)
      (fun hc => hsS (Option.some_inj.mp hc)), if_neg hsS]

/-- `InvIn` is preserved by a successful send with room. -/
theorem send_invariant (st : VMIn) (s m : Nat) (hInv : InvIn st)
    (hw : st.w < inboxCap) :
    InvIn ⟨true, st.slots.set st.w (some s, some m), st.w + 1, st.copies + 1⟩ := by
  obtain ⟨hact, hlen, hwle, hpend⟩ := hInv
  refine ⟨rfl, by rw [List.length_set]; exact hlen, Nat.succ_le_of_lt hw, ?_⟩
  intro i hi
  have hi2 : i < st.w + 1 := hi
  show ((st.slots.set st.w (some s, some m)).getD i (none, none)).1.isSome = true ∧
    ((st.slots.set st.w (some s, some m)).getD i (none, none)).2.isSome = true
  by_cases hiw : i = st.w
  · subst hiw
    rw [getD_set_self_slot st.slots st.w (some s, some m) (none, none) (by omega)]
    exact ⟨rfl, rfl⟩
  · rw [getD_set_ne_slot st.slots st.w i (some s, some m) (none, none)
      (fun hc => hiw hc.symm)]
    exact hpend i (by omega)

/-- `InvIn` is preserved by a successful receive. -/
theorem recv_invariant (st : VMIn) (f : Option Nat) (st2 : VMIn) (slot : MsgSlot)
    (hInv : InvIn st) (h : idris_recvMessageFrom st f = some (st2, slot)) :
    InvIn st2 := by
  obtain ⟨hact, hlen, hw, hpend⟩ := hInv
  obtain ⟨k, hkw, _, _, _, hact2, _, hw2, hlen2, _, hpoint⟩ :=
    recv_some st f st2 slot hlen hw h
  refine ⟨by rw [hact2]; exact hact, hlen2, by omega, ?_⟩
  intro i hi
  rw [hpoint i (by omega)]
  by_cases hik : k ≤ i
  · rw [if_pos hik]
    exact hpend (i+1) (by omega)
  · rw [if_neg hik]
    exact hpend i (by omega)

/-- The inbox trace theorem: along any linearized sequence of sends and
receives that runs without aborting, for every sender `S` the messages
`S` sent split exactly into the messages already received from `S` (in
order) followed by the still-pending messages from `S` (in inbox order).
In particular receives deliver each sender's messages in FIFO order. -/
theorem execTrace_fifo :
    ∀ (ops : List InOp) (st : VMIn), InvIn st →
      ∀ st2 outs, execTrace st ops = some (st2, outs) →
        InvIn st2 ∧
        ∀ S, pendingFrom S st ++ sentBy S ops = fromSender S outs ++ pendingFrom S st2 := by
  intro ops
  induction ops with
  | nil =>
    intro st hInv st2 outs h
    have h2 : (st, ([] : List MsgSlot)) = (st2, outs) := by
      have : execTrace st [] = some (st, []) := rfl
      exact Option.some_inj.mp (this.symm.trans h)
    obtain ⟨h3, h4⟩ := Prod.mk.inj h2
    subst h3
    subst h4
    refine ⟨hInv, fun S => ?_⟩
    show pendingFrom S st ++ [] = [] ++ pendingFrom S st
    simp
  | cons op rest ihr =>
    intro st hInv st2 outs h
    cases op with
    | send s m =>
      have hact : st.active = true := hInv.1
      have hlen : st.slots.length = inboxCap := hInv.2.1
      by_cases hw : st.w < inboxCap
      · have hsend := send_some st s m hact hw
        have hstep : execTrace st (InOp.send s m :: rest) =
            execTrace ⟨true, st.slots.set st.w (some s, some m),
              st.w + 1, st.copies + 1⟩ rest := by
          show (match execOp st (InOp.send s m) with
            | none => none
            | some (st1, outs1) =>
              match execTrace st1 rest with
              | none => none
              | some (st3, outs2) => some (st3, outs1 ++ outs2)) = _
          show (match (idris_sendMessage st s m).map (fun p => (p.1, ([] : List MsgSlot))) with
            | none => none
            | some (st1, outs1) =>
              match execTrace st1 rest with
              | none => none
              | some (st3, outs2) => some (st3, outs1 ++ outs2)) = _
          rw [hsend]
          show (match execTrace ⟨true, st.slots.set st.w (some s, some m),
              st.w + 1, st.copies + 1⟩ rest with
            | none => none
            | some (st3, outs2) => some (st3, [] ++ outs2)) = _
          cases hrest : execTrace ⟨true, st.slots.set st.w (some s, some m),
              st.w + 1, st.copies + 1⟩ rest with
          | none => rfl
          | some p => show some (p.1, [] ++ p.2) = some p; simp
        rw [hstep] at h
        have hInv1 := send_invariant st s m hInv hw
        obtain ⟨hInv2, hfifo⟩ := ihr _ hInv1 st2 outs h
        refine ⟨hInv2, fun S => ?_⟩
        have hpend1 := send_pendingFrom st s m hlen hw S
        have hsent : sentBy S (InOp.send s m :: rest) =
            (if s = S then [some m] else []) ++ sentBy S rest := by
          show (if s = S then some m :: sentBy S rest else sentBy S rest) = _
          by_cases hsS : s = S
          · rw [if_pos hsS, if_pos hsS]
            rfl
          · rw [if_neg hsS, if_neg hsS]
            rfl
        rw [hsent, ← List.append_assoc, ← hpend1]
        exact hfifo S
      · -- inbox full: the send aborts, contradicting a successful trace
        exfalso
        have hsend : idris_sendMessage st s m = none := by
          unfold idris_sendMessage
          rw [hact]
          rw [if_neg (by simp), if_pos (by omega : inboxCap ≤ st.w)]
        have : execTrace st (InOp.send s m :: rest) = none := by
          show (match execOp st (InOp.send s m) with
            | none => none
            | some (st1, outs1) =>
              match execTrace st1 rest with
              | none => none
              | some (st3, outs2) => some (st3, outs1 ++ outs2)) = none
          show (match (idris_sendMessage st s m).map (fun p => (p.1, ([] : List MsgSlot))) with
            | none => none
            | some (st1, outs1) =>
              match execTrace st1 rest with
              | none => none
              | some (st3, outs2) => some (st3, outs1 ++ outs2)) = none
          rw [hsend]
          rfl
        rw [this] at h
        exact absurd h (by simp)
    | recv f =>
      cases hrecv : idris_recvMessageFrom st f with
      | none =>
        exfalso
        have : execTrace st (InOp.recv f :: rest) = none := by
          show (match (idris_recvMessageFrom st f).map (fun p => (p.1, [p.2])) with
            | none => none
            | some (st1, outs1) =>
              match execTrace st1 rest with
              | none => none
              | some (st3, outs2) => some (st3, outs1 ++ outs2)) = none
          rw [hrecv]
          rfl
        rw [this] at h
        exact absurd h (by simp)
      | some p =>
        obtain ⟨st1, slot⟩ := p
        have hstep : ∀ q, execTrace st1 rest = some q →
            execTrace st (InOp.recv f :: rest) = some (q.1, [slot] ++ q.2) := by
          intro q hq
          show (match (idris_recvMessageFrom st f).map (fun p => (p.1, [p.2])) with
            | none => none
            | some (st1, outs1) =>
              match execTrace st1 rest with
              | none => none
              | some (st3, outs2) => some (st3, outs1 ++ outs2)) = _
          rw [hrecv]
          show (match execTrace st1 rest with
            | none => none
            | some (st3, outs2) => some (st3, [slot] ++ outs2)) = _
          rw [hq]
        cases hq : execTrace st1 rest with
        | none =>
          exfalso
          have : execTrace st (InOp.recv f :: rest) = none := by
            show (match (idris_recvMessageFrom st f).map (fun p => (p.1, [p.2])) with
              | none => none
              | some (st1, outs1) =>
                match execTrace st1 rest with
                | none => none
                | some (st3, outs2) => some (st3, outs1 ++ outs2)) = none
            rw [hrecv]
            show (match execTrace st1 rest with
              | none => none
              | some (st3, outs2) => some (st3, [slot] ++ outs2)) = none
            rw [hq]
          rw [this] at h
          exact absurd h (by simp)
        | some q =>
          have hx := hstep q hq
          rw [hx] at h
          have h2 := Option.some_inj.mp h
          obtain ⟨h3, h4⟩ := Prod.mk.inj h2
          have hInv1 := recv_invariant st f st1 slot hInv hrecv
          obtain ⟨hInv2, hfifo⟩ := ihr st1 hInv1 q.1 q.2 hq
          subst h3
          refine ⟨hInv2, fun S => ?_⟩
          have hsent : sentBy S (InOp.recv f :: rest) = sentBy S rest := rfl
          have hdecomp := recv_pendingFrom st f st1 slot hInv hrecv S
          rw [hsent, hdecomp, ← h4, fromSender_append]
          rw [List.append_assoc, List.append_assoc]
          rw [hfifo S]

/-- C2: per-sender FIFO delivery.  Along any linearized sequence of sends
and blocking receives on a receiver starting from `init_vm`, the sequence
of messages a fixed sender `S` has sent equals the sequence of messages
already delivered from `S` (in delivery order) followed by the messages
from `S` still pending in inbox order — so if `send(S,R,m1)` completes
before `send(S,R,m2)` begins, every receive returns `m1` before `m2`:
`idris_sendMessage` appends at the `inbox_write` cursor,
`idris_getMessageFrom` returns the lowest-indexed matching slot, and the
compaction in `idris_recvMessageFrom` preserves the order of the
remaining pending messages. -/
theorem C2_inbox_fifo :
    ∀ (ops : List InOp) (st2 : VMIn) (outs : List MsgSlot) (S : Nat),
      execTrace init_vm ops = some (st2, outs) →
      sentBy S ops = fromSender S outs ++ pendingFrom S st2 := by
  intro ops st2 outs S h
  have hInv : InvIn init_vm := by
    refine ⟨rfl, List.length_replicate inboxCap (none, none), Nat.zero_le _, ?_⟩
    intro i hi
    exact absurd hi (Nat.not_lt_zero i)
  have hfifo := (execTrace_fifo ops init_vm hInv st2 outs h).2 S
  have hinit : pendingFrom S init_vm = [] := rfl
  rw [hinit] at hfifo
  simpa using hfifo

/-- Witness for `C2_inbox_fifo`: the concrete trace `demoOps` (sender 1
sends 10 then 20, sender 2 sends 99 in between, then three receives)
runs successfully and satisfies the FIFO equation for sender 1. -/
theorem C2_inbox_fifo_witness :
    execTrace init_vm demoOps = some demoRes ∧
    sentBy 1 demoOps = fromSender 1 demoRes.2 ++ pendingFrom 1 demoRes.1 := by
  refine ⟨by rfl, ?_⟩
  exact C2_inbox_fifo demoOps demoRes.1 demoRes.2 1 (by rfl)

/-- C8: a send to a machine whose `active` flag is 0 (as `terminate`
leaves it) returns the failure code 0 immediately: the recipient state —
inbox slots, cursor, and copy count (no message is copied into its
heap) — is completely unchanged, and the only diagnostic-printing path
of `idris_sendMessage` (the inbox-full abort, the `none` result of this
model) is not taken. -/
theorem C8_send_inactive :
    (∀ (st : VMIn) (s m : Nat), st.active = false →
      idris_sendMessage st s m = some (st, 0)) ∧
    (∀ st : VMIn, (terminate st).active = false) := by
  constructor
  · intro st s m h
    unfold idris_sendMessage
    rw [h, if_pos rfl]
  · intro st
    rfl

/-- Witness for `C8_send_inactive`: sending to a terminated fresh machine
returns 0 and leaves it untouched. -/
theorem C8_send_inactive_witness :
    idris_sendMessage (terminate init_vm) 3 7 = some (terminate init_vm, 0) :=
  C8_send_inactive.1 (terminate init_vm) 3 7 rfl

/-- C10: the pending-region invariant breaks on a full inbox.  With 1024
pending messages (`inbox_write == inbox_end`, the state after 1024
successful sends), `idris_recvMessageFrom` returns the first message and
decrements the cursor to 1023, but the compaction loop skipped the final
slot (`msg+1 == inbox_end`) and the clearing write went to
`inbox[1024]` — one past the array — so slot 1023 still holds a stale
non-NULL duplicate message even though its index is not below
`inbox_write`: the slot-non-NULL region no longer coincides with
`[inbox, inbox_write)`, and `idris_checkMessagesFrom`'s NULL-terminated
scan will examine the stale slot. -/
theorem C10_recv_full_inbox_stale :
    (idris_recvMessageFrom fullInbox none).map
      (fun p => (p.1.w, (p.1.slots.getD 1023 (none, none)).2)) = some (1023, some 7) := by
  have hget : idris_getMessageFrom fullInbox none = some (0, (some 5, some 7)) := rfl
  have hlen : fullInbox.slots.length = inboxCap :=
    List.length_replicate inboxCap ((some 5 : Option Nat), (some 7 : Option Nat))
  have hgd : ((compactLoop (fullInbox.w - 0) fullInbox.slots 0).set fullInbox.w
      (none, none)).getD 1023 (none, none) = (some 5, some 7) := by
    rw [List.getD_eq_getElem?_getD,
      List.getElem?_set_ne (by decide : fullInbox.w ≠ 1023),
      compactLoop_getElem (fullInbox.w - 0) fullInbox.slots 0 hlen (by decide) 1023,
      if_neg (by decide)]
    show ((List.replicate inboxCap
      ((some 5 : Option Nat), (some 7 : Option Nat)))[1023]?).getD (none, none) = _
    rw [List.getElem?_replicate, if_pos (by decide)]
    rfl
  have hrecv : idris_recvMessageFrom fullInbox none =
      some (⟨true, (compactLoop (fullInbox.w - 0) fullInbox.slots 0).set fullInbox.w
        (none, none), fullInbox.w - 1, fullInbox.copies⟩, (some 5, some 7)) := by
    unfold idris_recvMessageFrom
    rw [hget]
    rfl
  rw [hrecv, Option.map_some']
  show some (fullInbox.w - 1,
    (((compactLoop (fullInbox.w - 0) fullInbox.slots 0).set fullInbox.w
      (none, none)).getD 1023 (none, none)).2) = some (1023, some 7)
  rw [hgd]
  rfl

theorem repP_mono {P Q : Nat → Prop} {st : Store} {x : IVal} {t : VTree}
    (hPQ : ∀ a, P a → Q a) (h : RepP P st x t) : RepP Q st x t := by
  induction h with
  | vnull => exact RepP.vnull
  | vint n => exact RepP.vint n
  | vcon a t args ts ha hget hlen _ ih =>
    exact RepP.vcon a t args ts (hPQ a ha) hget hlen ih
  | vflt a b ha hget => exact RepP.vflt a b (hPQ a ha) hget
  | vstr a s ha hget => exact RepP.vstr a s (hPQ a ha) hget
  | vbig a v ha hget => exact RepP.vbig a v (hPQ a ha) hget
  | vptr a p ha hget => exact RepP.vptr a p (hPQ a ha) hget
  | vmptr a bs ha hget => exact RepP.vmptr a bs (hPQ a ha) hget
  | vbits8 a v ha hget => exact RepP.vbits8 a v (hPQ a ha) hget
  | vbits16 a v ha hget => exact RepP.vbits16 a v (hPQ a ha) hget
  | vbits32 a v ha hget => exact RepP.vbits32 a v (hPQ a ha) hget
  | vbits64 a v ha hget => exact RepP.vbits64 a v (hPQ a ha) hget
  | vrawdata a bs ha hget => exact RepP.vrawdata a bs (hPQ a ha) hget

theorem repP_stable {P : Nat → Prop} {st st2 : Store} {x : IVal} {t : VTree}
    (hag : ∀ a, P a → st2[a]? = st[a]?) (h : RepP P st x t) : RepP P st2 x t := by
  induction h with
  | vnull => exact RepP.vnull
  | vint n => exact RepP.vint n
  | vcon a t args ts ha hget hlen _ ih =>
    exact RepP.vcon a t args ts ha ((hag a ha).trans hget) hlen ih
  | vflt a b ha hget => exact RepP.vflt a b ha ((hag a ha).trans hget)
  | vstr a s ha hget => exact RepP.vstr a s ha ((hag a ha).trans hget)
  | vbig a v ha hget => exact RepP.vbig a v ha ((hag a ha).trans hget)
  | vptr a p ha hget => exact RepP.vptr a p ha ((hag a ha).trans hget)
  | vmptr a bs ha hget => exact RepP.vmptr a bs ha ((hag a ha).trans hget)
  | vbits8 a v ha hget => exact RepP.vbits8 a v ha ((hag a ha).trans hget)
  | vbits16 a v ha hget => exact RepP.vbits16 a v ha ((hag a ha).trans hget)
  | vbits32 a v ha hget => exact RepP.vbits32 a v ha ((hag a ha).trans hget)
  | vbits64 a v ha hget => exact RepP.vbits64 a v ha ((hag a ha).trans hget)
  | vrawdata a bs ha hget => exact RepP.vrawdata a bs ha ((hag a ha).trans hget)

theorem height_pos : ∀ t : VTree, 1 ≤ t.height := by
  intro t
  cases t with
  | tcon tag ts =>
    show 1 ≤ VTree.heightL ts + 1
    omega
  | tnull => exact le_refl 1
  | tint n => exact le_refl 1
  | tflt b => exact le_refl 1
  | tstr s => exact le_refl 1
  | tbig v => exact le_refl 1
  | tptr p => exact le_refl 1
  | tmptr bs => exact le_refl 1
  | tbits8 v => exact le_refl 1
  | tbits16 v => exact le_refl 1
  | tbits32 v => exact le_refl 1
  | tbits64 v => exact le_refl 1
  | trawdata bs => exact le_refl 1

theorem heightL_bound : ∀ (ts : List VTree) (j : Nat), j < ts.length →
    (ts.getD j VTree.tnull).height ≤ VTree.heightL ts := by
  intro ts
  induction ts with
  | nil => intro j hj; exact absurd hj (by simp)
  | cons t ts iht =>
    intro j hj
    cases j with
    | zero =>
      show t.height ≤ max t.height (VTree.heightL ts)
      exact le_max_left _ _
    | succ j =>
      show (ts.getD j VTree.tnull).height ≤ max t.height (VTree.heightL ts)
      exact le_trans (iht j (by simpa using hj)) (le_max_right _ _)

theorem take_set_succ {α : Type} (l : List α) (w : Nat) (v : α) (hw : w < l.length) :
    (l.set w v).take (w + 1) = l.take w ++ [v] := by
  apply List.ext_getElem?
  intro n
  rw [List.getElem?_take, List.getElem?_append]
  have hlt : (l.take w).length = w := by
    rw [List.length_take]; exact Nat.min_eq_left (by omega)
  rcases Nat.lt_trichotomy n w with hn | hn | hn
  · rw [if_pos (by omega), if_pos (by omega : n < (l.take w).length),
      List.getElem?_set_ne (by omega : w ≠ n), List.getElem?_take, if_pos hn]
  · subst hn
    rw [if_pos (by omega), if_neg (by omega : ¬ n < (l.take n).length),
      List.getElem?_set_self hw, hlt]
    simp
  · rw [if_neg (by omega), if_neg (by omega : ¬ n < (l.take w).length), hlt]
    cases hnw : n - w with
    | zero => omega
    | succ q => simp

theorem drop_set_lt {α : Type} (l : List α) (i : Nat) (v : α) (n : Nat) (h : i < n) :
    (l.set i v).drop n = l.drop n := by
  apply List.ext_getElem?
  intro j
  rw [List.getElem?_drop, List.getElem?_drop, List.getElem?_set_ne (by omega : i ≠ n + j)]

theorem setFrom_spec : ∀ (ys : List IVal) (l : List IVal) (i : Nat),
    i + ys.length ≤ l.length →
    setFrom l i ys = l.take i ++ ys ++ l.drop (i + ys.length) := by
  intro ys
  induction ys with
  | nil =>
    intro l i hle
    show l = l.take i ++ [] ++ l.drop (i + 0)
    rw [List.append_nil]
    show l = l.take i ++ l.drop i
    rw [List.take_append_drop]
  | cons y ys ihy =>
    intro l i hle
    have hle2 : i + (ys.length + 1) ≤ l.length := by
      simpa using hle
    have hlen : i < l.length := by omega
    show setFrom (l.set i y) (i+1) ys =
      l.take i ++ (y :: ys) ++ l.drop (i + (ys.length + 1))
    rw [ihy (l.set i y) (i+1) (by rw [List.length_set]; omega)]
    rw [take_set_succ l i y hlen, drop_set_lt l i y (i+1+ys.length) (by omega)]
    have harith : i + 1 + ys.length = i + (ys.length + 1) := by omega
    rw [harith]
    simp [List.append_assoc]

/-- Correctness of the child-copy loop, assuming the recursive call
satisfies `CopySpec fuel`: it fills the argument slots of the fresh
constructor cell at `na` with copies of the source arguments, each
representing its tree, never touching `na` from inside a child's
representation. -/
theorem copyArgsF_ok (fuel : Nat) (HIH : CopySpec fuel) :
    ∀ (args : List IVal) (ts : List VTree) (Q : Nat → Prop) (st : Store)
      (na i t0 : Nat) (filled : List IVal),
      (∀ a, Q a → a < st.length ∧ a ≠ na) →
      na < st.length →
      st[na]? = some (Cell.con t0 filled) →
      args.length = ts.length →
      (∀ j, j < args.length →
        RepP Q st (args.getD j IVal.vnull) (ts.getD j VTree.tnull)) →
      (∀ j, j < ts.length → VTree.height (ts.getD j VTree.tnull) < fuel) →
      ∃ st2 ys,
        copyArgsF (doCopyTo fuel) st na i args = some st2 ∧
        st.length ≤ st2.length ∧
        (∀ a, a < st.length → a ≠ na → st2[a]? = st[a]?) ∧
        ys.length = args.length ∧
        st2[na]? = some (Cell.con t0 (setFrom filled i ys)) ∧
        (∀ j, j < ys.length →
          RepP (fun a => (Q a ∨ (st.length ≤ a ∧ a < st2.length)) ∧ a ≠ na)
            st2 (ys.getD j IVal.vnull) (ts.getD j VTree.tnull)) := by
  intro args
  induction args with
  | nil =>
    intro ts Q st na i t0 filled hQ hna hget hlen hkids hhts
    exact ⟨st, [], rfl, le_refl _, fun a _ _ => rfl, rfl, hget,
      fun j hj => absurd hj (by simp)⟩
  | cons x rest ihr =>
    intro ts Q st na i t0 filled hQ hna hget hlen hkids hhts
    cases ts with
    | nil => exact absurd hlen (by simp)
    | cons tt ts2 =>
      have hkid0 : RepP Q st x tt := hkids 0 (by simp)
      have hh0 : VTree.height tt < fuel := hhts 0 (by simp)
      obtain ⟨st1, y, hcopy, hlen1, hpres1, hrep1⟩ :=
        HIH Q st x tt (fun a ha => (hQ a ha).1) hkid0 hh0
      have hget1 : st1[na]? = some (Cell.con t0 filled) :=
        (hpres1 na hna).trans hget
      have hupdU : updateConArg st1 na i y = st1.set na (Cell.con t0 (filled.set i y)) := by
        unfold updateConArg
        rw [hget1]
      have hlenU : (updateConArg st1 na i y).length = st1.length := by
        rw [hupdU, List.length_set]
      have hgetU : (updateConArg st1 na i y)[na]? =
          some (Cell.con t0 (filled.set i y)) := by
        rw [hupdU]
        exact List.getElem?_set_self (by omega)
      have hpresU : ∀ a, a ≠ na → (updateConArg st1 na i y)[a]? = st1[a]? := by
        intro a hane
        rw [hupdU]
        exact List.getElem?_set_ne (fun hc => hane hc.symm)
      -- the child's representation avoids na, so it survives the slot write
      have hrange_ne : ∀ a, (Q a ∨ (st.length ≤ a ∧ a < st1.length)) → a ≠ na := by
        intro a ha
        rcases ha with ha | ha
        · exact (hQ a ha).2
        · omega
      have hrepU : RepP (fun a => (Q a ∨ (st.length ≤ a ∧ a < st1.length)) ∧ a ≠ na)
          (updateConArg st1 na i y) y tt := by
        refine repP_stable (fun a ha => hpresU a ha.2) ?_
        exact repP_mono (fun a ha => ⟨ha, hrange_ne a ha⟩) hrep1
      -- invariant for the remaining arguments
      obtain ⟨st2, ys2, hca, hlen2, hpres2, hylen2, hget2, hreps2⟩ :=
        ihr ts2 (fun a => (Q a ∨ (st.length ≤ a ∧ a < st1.length)) ∧ a ≠ na)
          (updateConArg st1 na i y) na (i+1) t0 (filled.set i y)
          (by
            intro a ⟨ha, hane⟩
            refine ⟨?_, hane⟩
            rw [hlenU]
            rcases ha with ha | ha
            · exact lt_of_lt_of_le (hQ a ha).1 hlen1
            · omega)
          (by rw [hlenU]; omega)
          hgetU
          (by simpa using hlen)
          (by
            intro j hj
            have hkj : RepP Q st (rest.getD j IVal.vnull) (ts2.getD j VTree.tnull) :=
              hkids (j+1) (by simpa using hj)
            have h1 : RepP Q st1 (rest.getD j IVal.vnull) (ts2.getD j VTree.tnull) :=
              repP_stable (fun a ha => hpres1 a (hQ a ha).1) hkj
            have h2 : RepP Q (updateConArg st1 na i y)
                (rest.getD j IVal.vnull) (ts2.getD j VTree.tnull) :=
              repP_stable (fun a ha => hpresU a (hQ a ha).2) h1
            exact repP_mono (fun a ha => ⟨Or.inl ha, (hQ a ha).2⟩) h2)
          (by
            intro j hj
            exact hhts (j+1) (by simpa using hj))
      refine ⟨st2, y :: ys2, ?_, ?_, ?_, ?_, ?_, ?_⟩
      · show (match doCopyTo fuel st x with
          | none => none
          | some (st1, v) => copyArgsF (doCopyTo fuel) (updateConArg st1 na i v)
              na (i+1) rest) = some st2
        rw [hcopy]
        exact hca
      · rw [← hlenU] at hlen1
        omega
      · intro a halt hane
        have h1 : st2[a]? = (updateConArg st1 na i y)[a]? := by
          refine hpres2 a ?_ hane
          rw [hlenU]
          omega
        rw [h1, hpresU a hane, hpres1 a halt]
      · simpa using hylen2
      · exact hget2
      · intro j hj
        cases j with
        | zero =>
          show RepP _ st2 y tt
          refine repP_mono ?_ (repP_stable (fun a ha => hpres2 a (by
            rw [hlenU]
            rcases ha.1 with h | h
            · exact lt_of_lt_of_le (hQ a h).1 hlen1
            · omega) ha.2) hrepU)
          intro a ⟨ha, hane⟩
          refine ⟨?_, hane⟩
          rcases ha with h | h
          · exact Or.inl h
          · refine Or.inr ⟨h.1, ?_⟩
            rw [hlenU] at hlen2
            omega
        | succ j2 =>
          show RepP _ st2 (ys2.getD j2 IVal.vnull) (ts2.getD j2 VTree.tnull)
          refine repP_mono ?_ (hreps2 j2 (by simp at hj; omega))
          intro a ⟨ha, hane⟩
          refine ⟨?_, hane⟩
          rcases ha with ⟨h, _⟩ | h
          · rcases h with h | h
            · exact Or.inl h
            · refine Or.inr ⟨h.1, ?_⟩
              rw [hlenU] at hlen2
              omega
          · refine Or.inr ⟨?_, h.2⟩
            rw [hlenU] at h
            omega

/-- One-step evaluation of `doCopyToCore` at an address value. -/
theorem doCopyToCore_addr (copy : Store → IVal → Option (Store × IVal))
    (st : Store) (a : Nat) :
    doCopyToCore copy st (IVal.vaddr a) =
      match st[a]? with
      | none => none
      | some (Cell.con t args) =>
        if args.length = 0 ∧ t < 256 then some (st, IVal.vaddr a)
        else
          match copyArgsF copy (st ++ [Cell.con t (args.map (fun _ => IVal.vnull))])
              st.length 0 args with
          | none => none
          | some st2 => some (st2, IVal.vaddr st.length)
      | some (Cell.flt b) => some (st ++ [Cell.flt b], IVal.vaddr st.length)
      | some (Cell.str s) => some (st ++ [Cell.str s], IVal.vaddr st.length)
      | some (Cell.big v) => some (st ++ [Cell.big v], IVal.vaddr st.length)
      | some (Cell.ptr p) => some (st ++ [Cell.ptr p], IVal.vaddr st.length)
      | some (Cell.mptr bs) => some (st ++ [Cell.mptr bs], IVal.vaddr st.length)
      | some (Cell.bits8 v) => some (st ++ [Cell.bits8 v], IVal.vaddr st.length)
      | some (Cell.bits16 v) => some (st ++ [Cell.bits16 v], IVal.vaddr st.length)
      | some (Cell.bits32 v) => some (st ++ [Cell.bits32 v], IVal.vaddr st.length)
      | some (Cell.bits64 v) => some (st ++ [Cell.bits64 v], IVal.vaddr st.length)
      | some (Cell.rawdata bs) => some (st ++ [Cell.rawdata bs], IVal.vaddr st.length)
      | some (Cell.stroffset _ _) => none
      | some (Cell.cdata _) => none
      | some (Cell.fwd _) => none := rfl

/-- Main copy-correctness lemma: at every fuel, `doCopyTo` satisfies
`CopySpec` — given enough fuel for the value's depth, the copy succeeds,
the store is only extended (existing cells unread addresses unchanged),
and the result represents the same tree as the source. -/
theorem doCopyTo_ok : ∀ fuel : Nat, CopySpec fuel := by
  intro fuel
  induction fuel with
  | zero =>
    intro P st x t hP hrep hh
    exact absurd hh (by have := height_pos t; omega)
  | succ n ih =>
    intro P st x t hP hrep hh
    cases hrep with
    | vnull =>
      exact ⟨st, IVal.vnull, rfl, le_refl _, fun a _ => rfl, RepP.vnull⟩
    | vint m =>
      exact ⟨st, IVal.vint m, rfl, le_refl _, fun a _ => rfl, RepP.vint m⟩
    | vcon a t0 args ts ha hget hlenAT hkids =>
      have heval : doCopyTo (n+1) st (IVal.vaddr a) =
          (if args.length = 0 ∧ t0 < 256 then some (st, IVal.vaddr a)
           else match copyArgsF (doCopyTo n)
              (st ++ [Cell.con t0 (args.map (fun _ => IVal.vnull))]) st.length 0 args with
            | none => none
            | some st2 => some (st2, IVal.vaddr st.length)) := by
        show doCopyToCore (doCopyTo n) st (IVal.vaddr a) = _
        rw [doCopyToCore_addr, hget]
      by_cases hnul : args.length = 0 ∧ t0 < 256
      · refine ⟨st, IVal.vaddr a, by rw [heval, if_pos hnul], le_refl _,
          fun a2 _ => rfl, ?_⟩
        refine RepP.vcon a t0 args ts (Or.inl ha) hget hlenAT ?_
        intro j hj
        exact repP_mono (fun a2 ha2 => Or.inl ha2)
          (hkids j hj)
      · have hhts : ∀ j, j < ts.length → VTree.height (ts.getD j VTree.tnull) < n := by
          intro j hj
          have hhh : VTree.heightL ts + 1 < n + 1 := by
            have : VTree.height (VTree.tcon t0 ts) = VTree.heightL ts + 1 := by
              simp [VTree.height]
            rw [this] at hh
            exact hh
          exact lt_of_le_of_lt (heightL_bound ts j hj) (by omega)
        have hkids1 : ∀ j, j < args.length →
            RepP P (st ++ [Cell.con t0 (args.map (fun _ => IVal.vnull))])
              (args.getD j IVal.vnull) (ts.getD j VTree.tnull) := by
          intro j hj
          exact repP_stable
            (fun a2 ha2 => List.getElem?_append_left (hP a2 ha2)) (hkids j hj)
        obtain ⟨st2, ys, hca, hlen2, hpres2, hylen, hget2, hreps2⟩ :=
          copyArgsF_ok n ih args ts P
            (st ++ [Cell.con t0 (args.map (fun _ => IVal.vnull))]) st.length 0 t0
            (args.map (fun _ => IVal.vnull))
            (by
              intro a2 ha2
              have := hP a2 ha2
              constructor
              · rw [List.length_append]
                omega
              · omega)
            (by rw [List.length_append]; simp)
            (List.getElem?_concat_length st _)
            hlenAT hkids1 hhts
        have hsf : setFrom (args.map (fun _ => IVal.vnull)) 0 ys = ys := by
          rw [setFrom_spec ys _ 0 (by rw [List.length_map]; omega)]
          have hdrop : ((args.map (fun _ => IVal.vnull)).drop (0 + ys.length)) = [] := by
            apply List.drop_eq_nil_of_le
            rw [List.length_map]
            omega
          rw [hdrop]
          simp
        have hlapp : (st ++ [Cell.con t0 (args.map (fun _ => IVal.vnull))]).length =
            st.length + 1 := by
          rw [List.length_append]
          rfl
        refine ⟨st2, IVal.vaddr st.length, ?_, by omega, ?_, ?_⟩
        · rw [heval, if_neg hnul, hca]
        · intro a2 ha2
          have h1 := hpres2 a2 (by omega) (by omega)
          rw [h1]
          exact List.getElem?_append_left ha2
        · refine RepP.vcon st.length t0 ys ts (Or.inr ⟨le_refl _, by omega⟩)
            (by rw [hget2, hsf]) (by omega) ?_
          intro j hj
          refine repP_mono ?_ (hreps2 j hj)
          intro a2 ⟨ha2, _⟩
          rcases ha2 with h | h
          · exact Or.inl h
          · exact Or.inr ⟨by omega, h.2⟩
    | vflt a b ha hget =>
      refine ⟨st ++ [Cell.flt b], IVal.vaddr st.length,
        ?_, by simp, fun a2 ha2 => List.getElem?_append_left ha2,
        RepP.vflt st.length b (Or.inr ⟨le_refl _, by simp⟩)
          (List.getElem?_concat_length st _)⟩
      show doCopyToCore (doCopyTo n) st (IVal.vaddr a) = _
      rw [doCopyToCore_addr, hget]
    | vstr a s ha hget =>
      refine ⟨st ++ [Cell.str s], IVal.vaddr st.length,
        ?_, by simp, fun a2 ha2 => List.getElem?_append_left ha2,
        RepP.vstr st.length s (Or.inr ⟨le_refl _, by simp⟩)
          (List.getElem?_concat_length st _)⟩
      show doCopyToCore (doCopyTo n) st (IVal.vaddr a) = _
      rw [doCopyToCore_addr, hget]
    | vbig a v ha hget =>
      refine ⟨st ++ [Cell.big v], IVal.vaddr st.length,
        ?_, by simp, fun a2 ha2 => List.getElem?_append_left ha2,
        RepP.vbig st.length v (Or.inr ⟨le_refl _, by simp⟩)
          (List.getElem?_concat_length st _)⟩
      show doCopyToCore (doCopyTo n) st (IVal.vaddr a) = _
      rw [doCopyToCore_addr, hget]
    | vptr a p ha hget =>
      refine ⟨st ++ [Cell.ptr p], IVal.vaddr st.length,
        ?_, by simp, fun a2 ha2 => List.getElem?_append_left ha2,
        RepP.vptr st.length p (Or.inr ⟨le_refl _, by simp⟩)
          (List.getElem?_concat_length st _)⟩
      show doCopyToCore (doCopyTo n) st (IVal.vaddr a) = _
      rw [doCopyToCore_addr, hget]
    | vmptr a bs ha hget =>
      refine ⟨st ++ [Cell.mptr bs], IVal.vaddr st.length,
        ?_, by simp, fun a2 ha2 => List.getElem?_append_left ha2,
        RepP.vmptr st.length bs (Or.inr ⟨le_refl _, by simp⟩)
          (List.getElem?_concat_length st _)⟩
      show doCopyToCore (doCopyTo n) st (IVal.vaddr a) = _
      rw [doCopyToCore_addr, hget]
    | vbits8 a v ha hget =>
      refine ⟨st ++ [Cell.bits8 v], IVal.vaddr st.length,
        ?_, by simp, fun a2 ha2 => List.getElem?_append_left ha2,
        RepP.vbits8 st.length v (Or.inr ⟨le_refl _, by simp⟩)
          (List.getElem?_concat_length st _)⟩
      show doCopyToCore (doCopyTo n) st (IVal.vaddr a) = _
      rw [doCopyToCore_addr, hget]
    | vbits16 a v ha hget =>
      refine ⟨st ++ [Cell.bits16 v], IVal.vaddr st.length,
        ?_, by simp, fun a2 ha2 => List.getElem?_append_left ha2,
        RepP.vbits16 st.length v (Or.inr ⟨le_refl _, by simp⟩)
          (List.getElem?_concat_length st _)⟩
      show doCopyToCore (doCopyTo n) st (IVal.vaddr a) = _
      rw [doCopyToCore_addr, hget]
    | vbits32 a v ha hget =>
      refine ⟨st ++ [Cell.bits32 v], IVal.vaddr st.length,
        ?_, by simp, fun a2 ha2 => List.getElem?_append_left ha2,
        RepP.vbits32 st.length v (Or.inr ⟨le_refl _, by simp⟩)
          (List.getElem?_concat_length st _)⟩
      show doCopyToCore (doCopyTo n) st (IVal.vaddr a) = _
      rw [doCopyToCore_addr, hget]
    | vbits64 a v ha hget =>
      refine ⟨st ++ [Cell.bits64 v], IVal.vaddr st.length,
        ?_, by simp, fun a2 ha2 => List.getElem?_append_left ha2,
        RepP.vbits64 st.length v (Or.inr ⟨le_refl _, by simp⟩)
          (List.getElem?_concat_length st _)⟩
      show doCopyToCore (doCopyTo n) st (IVal.vaddr a) = _
      rw [doCopyToCore_addr, hget]
    | vrawdata a bs ha hget =>
      refine ⟨st ++ [Cell.rawdata bs], IVal.vaddr st.length,
        ?_, by simp, fun a2 ha2 => List.getElem?_append_left ha2,
        RepP.vrawdata st.length bs (Or.inr ⟨le_refl _, by simp⟩)
          (List.getElem?_concat_length st _)⟩
      show doCopyToCore (doCopyTo n) st (IVal.vaddr a) = _
      rw [doCopyToCore_addr, hget]

/-- C1 (amended): cross-machine deep-copy equality for the supported
tags.  NULL and inline small integers are returned unchanged with no
allocation.  For every value whose cells carry the tags `doCopyTo`
handles — constructors, floats, strings, bigints, opaque and managed
pointers, the four word sizes, and raw blobs — the copy succeeds (given
fuel beyond the value's depth), extends the target heap only (every
existing cell is unchanged), and the result represents the same
depth-first (tag, payload) tree `t` as the source, so the two traversals
are structurally identical with integer, word and float payloads
preserved bit-exactly.  The claim's "for every value" is refuted by
`C1_copy_slice_asserts`: a `CT_STROFFSET` (string-slice) cell — like
`CT_CDATA` and `CT_FWD` — has no case in `doCopyTo` and dies on
`assert(0)`, returning nothing. -/
theorem C1_copy_deep_equality :
    (∀ (fuel : Nat) (st : Store) (m : Int),
      doCopyTo (fuel+1) st (IVal.vint m) = some (st, IVal.vint m)) ∧
    (∀ (fuel : Nat) (st : Store),
      doCopyTo (fuel+1) st IVal.vnull = some (st, IVal.vnull)) ∧
    (∀ (fuel : Nat) (P : Nat → Prop) (st : Store) (x : IVal) (t : VTree),
      (∀ a, P a → a < st.length) → RepP P st x t → VTree.height t < fuel →
      ∃ st2 y, doCopyTo fuel st x = some (st2, y) ∧
        st.length ≤ st2.length ∧
        (∀ a, a < st.length → st2[a]? = st[a]?) ∧
        RepP (fun a => P a ∨ (st.length ≤ a ∧ a < st2.length)) st2 y t) :=
  ⟨fun _ _ _ => rfl, fun _ _ => rfl, fun fuel => doCopyTo_ok fuel⟩

/-- Witness for `C1_copy_deep_equality`: copying a constructor cell
(tag 300, one inline-integer argument) out of a two-cell store; all
hypotheses are discharged at the concrete value. -/
theorem C1_copy_deep_equality_witness :
    ∃ st2 y,
      doCopyTo 3 [Cell.flt 9, Cell.con 300 [IVal.vint 5]] (IVal.vaddr 1) =
        some (st2, y) ∧
      (2 : Nat) ≤ st2.length ∧
      (∀ a, a < 2 → st2[a]? = [Cell.flt 9, Cell.con 300 [IVal.vint 5]][a]?) ∧
      RepP (fun a => (fun a => a < 2) a ∨ (2 ≤ a ∧ a < st2.length)) st2 y
        (VTree.tcon 300 [VTree.tint 5]) := by
  have h := C1_copy_deep_equality.2.2 3 (fun a => a < 2)
    [Cell.flt 9, Cell.con 300 [IVal.vint 5]] (IVal.vaddr 1)
    (VTree.tcon 300 [VTree.tint 5])
    (fun a ha => ha)
    (RepP.vcon 1 300 [IVal.vint 5] [VTree.tint 5] (by omega) rfl rfl
      (by
        intro j hj
        have hj0 : j = 0 := by simpa using hj
        subst hj0
        exact RepP.vint 5))
    (by
      show VTree.height (VTree.tcon 300 [VTree.tint 5]) < 3
      simp [VTree.height, VTree.heightL])
  exact h

/-- C1 counterexample: copying a live string-slice value (`"hi"` sliced
at offset 1) hits the `default: assert(0)` arm of `doCopyTo` — no copy is
returned for a value every machine can legitimately hold, refuting the
claim for arbitrary values. -/
theorem C1_copy_slice_asserts :
    doCopyTo 9 [Cell.str [104, 105], Cell.stroffset (IVal.vaddr 0) 1]
      (IVal.vaddr 1) = none := rfl

/-- C6: for a nullary constructor with tag `t < 256`, whose references
are (per the spec's interning of `nullary_cons`, established by
`init_nullaries` at process start) the global cell at address `t`,
`doCopyTo` performs no allocation — the store is returned unchanged —
and returns the very same reference `nullary_cons[t]`, so the copy on
machine `B` is pointer-equal to the one on every other machine. -/
theorem C6_nullary_shared :
    ∀ (st : Store) (t fuel : Nat), globalsOk st → t < 256 →
      doCopyTo (fuel+1) st (IVal.vaddr (nullary_cons_addr t)) =
        some (st, IVal.vaddr (nullary_cons_addr t)) := by
  intro st t fuel hg ht
  show doCopyToCore (doCopyTo fuel) st (IVal.vaddr t) = some (st, IVal.vaddr t)
  rw [doCopyToCore_addr, hg t ht]
  show (if ([] : List IVal).length = 0 ∧ t < 256 then some (st, IVal.vaddr t)
    else match copyArgsF (doCopyTo fuel)
        (st ++ [Cell.con t (([] : List IVal).map (fun _ => IVal.vnull))])
        st.length 0 ([] : List IVal) with
      | none => none
      | some st2 => some (st2, IVal.vaddr st.length)) = some (st, IVal.vaddr t)
  rw [if_pos ⟨rfl, ht⟩]

/-- Witness for `C6_nullary_shared`: copying the tag-7 nullary cell out
of the freshly initialized global table returns the table cell itself,
with no allocation. -/
theorem C6_nullary_shared_witness :
    doCopyTo 1 init_nullaries (IVal.vaddr (nullary_cons_addr 7)) =
      some (init_nullaries, IVal.vaddr (nullary_cons_addr 7)) := by
  have hg : globalsOk init_nullaries := by
    intro i hi
    show ((List.range 256).map (fun i => Cell.con i []))[i]? = some (Cell.con i [])
    rw [List.getElem?_map]
    rw [List.getElem?_range hi]
    rfl
  exact C6_nullary_shared init_nullaries 7 0 hg (by omega)

/-- One-step evaluation of `GETSTRbytes` at an address value. -/
theorem GETSTRbytes_addr (st : Store) (a : Nat) :
    GETSTRbytes st (IVal.vaddr a) =
      match st[a]? with
      | some (Cell.str bs) => some bs
      | some (Cell.stroffset r off) =>
        match r with
        | IVal.vaddr ra =>
          match st[ra]? with
          | some (Cell.str bs) => some (bs.drop off)
          | _ => none
        | _ => none
      | _ => none := rfl

theorem isStrCell_append (st : Store) (v : IVal) (c : Cell)
    (h : isStrCell st v) : isStrCell (st ++ [c]) v := by
  obtain ⟨a, bs, hv, hget⟩ := h
  refine ⟨a, bs, hv, ?_⟩
  rw [List.getElem?_append_left (by
    have := List.getElem?_eq_some.mp hget
    exact this.1)]
  exact hget

/-- C7: slice-root flatness is preserved by the slice-constructing
operations.  If the input string value satisfies the invariant (it is a
string cell or a slice rooted directly at one), then `idris_strTail`
succeeds — on either branch — and its result satisfies the invariant
again: the new slice's `str` field references a string cell, never
another slice, because the walk re-roots at the underlying string
(accumulating the offset) and the no-space branch builds a plain string.
`MKSTROFFc` likewise preserves the invariant for any string-cell root. -/
theorem C7_strTail_flat :
    (∀ (st : Store) (v : IVal) (wf : Nat) (b : Bool),
      flatVal st v → 2 ≤ wf →
      ∃ st2 y, idris_strTail wf b st v = some (st2, y) ∧ flatVal st2 y) ∧
    (∀ (st : Store) (root : IVal) (off : Nat), isStrCell st root →
      flatVal (MKSTROFFc st root off).1 (MKSTROFFc st root off).2) := by
  constructor
  · intro st v wf b hflat hwf
    obtain ⟨w2, rfl⟩ : ∃ w2, wf = w2 + 2 := ⟨wf - 2, by omega⟩
    cases b with
    | false =>
      -- no-space branch: MKSTR of the tail bytes, a flat string cell
      obtain ⟨bs, hbs⟩ : ∃ bs, GETSTRbytes st v = some bs := by
        rcases hflat with ⟨a, bs, rfl, hget⟩ | ⟨a, r, off, rfl, hget, ra, rbs, rfl, hrget⟩
        · exact ⟨bs, by rw [GETSTRbytes_addr, hget]⟩
        · refine ⟨rbs.drop off, ?_⟩
          rw [GETSTRbytes_addr, hget]
          show (match st[ra]? with
            | some (Cell.str bs) => some (bs.drop off)
            | _ => none) = some (rbs.drop off)
          rw [hrget]
      refine ⟨st ++ [Cell.str (bs.drop (idris_utf8_charlen bs))],
        IVal.vaddr st.length, ?_, ?_⟩
      · show (match GETSTRbytes st v with
          | none => none
          | some bs =>
            some (st ++ [Cell.str (bs.drop (idris_utf8_charlen bs))],
              IVal.vaddr st.length)) = _
        rw [hbs]
      · exact Or.inl ⟨st.length, _, rfl, List.getElem?_concat_length st _⟩
    | true =>
      -- slice branch: walk to the root string, then allocate a slice on it
      obtain ⟨bs, hbs⟩ : ∃ bs, GETSTRbytes st v = some bs := by
        rcases hflat with ⟨a, bs, rfl, hget⟩ | ⟨a, r, off, rfl, hget, ra, rbs, rfl, hrget⟩
        · exact ⟨bs, by rw [GETSTRbytes_addr, hget]⟩
        · refine ⟨rbs.drop off, ?_⟩
          rw [GETSTRbytes_addr, hget]
          show (match st[ra]? with
            | some (Cell.str bs) => some (bs.drop off)
            | _ => none) = some (rbs.drop off)
          rw [hrget]
      obtain ⟨root, off, hwalk, hroot⟩ : ∃ root off,
          strRootWalk (w2 + 2) st v 0 = some (root, off) ∧ isStrCell st root := by
        rcases hflat with ⟨a, sbs, rfl, hget⟩ | ⟨a, r, off, rfl, hget, ra, rbs, hr, hrget⟩
        · refine ⟨IVal.vaddr a, 0, ?_, ⟨a, sbs, rfl, hget⟩⟩
          show (match st[a]? with
            | some (Cell.str _) => some (IVal.vaddr a, 0)
            | some (Cell.stroffset r off) => strRootWalk (w2+1) st r (0 + off)
            | _ => none) = some (IVal.vaddr a, 0)
          rw [hget]
        · refine ⟨IVal.vaddr ra, off, ?_, ⟨ra, rbs, rfl, hrget⟩⟩
          show (match st[a]? with
            | some (Cell.str _) => some (IVal.vaddr a, 0)
            | some (Cell.stroffset r o) => strRootWalk (w2+1) st r (0 + o)
            | _ => none) = some (IVal.vaddr ra, off)
          rw [hget, hr]
          show (match st[ra]? with
            | some (Cell.str _) => some (IVal.vaddr ra, 0 + off)
            | some (Cell.stroffset r o) => strRootWalk w2 st r (0 + off + o)
            | _ => none) = some (IVal.vaddr ra, off)
          rw [hrget]
          show some (IVal.vaddr ra, 0 + off) = some (IVal.vaddr ra, off)
          rw [Nat.zero_add]
      refine ⟨st ++ [Cell.stroffset root (off + idris_utf8_charlen bs)],
        IVal.vaddr st.length, ?_, ?_⟩
      · show (match strRootWalk (w2+2) st v 0 with
          | none => none
          | some (root, off) =>
            match GETSTRbytes st v with
            | none => none
            | some bs =>
              some (st ++ [Cell.stroffset root (off + idris_utf8_charlen bs)],
                IVal.vaddr st.length)) = _
        rw [hwalk, hbs]
      · refine Or.inr ⟨st.length, root, off + idris_utf8_charlen bs, rfl,
          List.getElem?_concat_length st _, ?_⟩
        exact isStrCell_append st root _ hroot
  · intro st root off hroot
    exact Or.inr ⟨st.length, root, off, rfl,
      List.getElem?_concat_length st _, isStrCell_append st root _ hroot⟩

/-- Witness for `C7_strTail_flat`: the tail of the plain string `"abc"`,
with room for a slice cell, is a slice rooted at the original string
cell; the invariant hypotheses are discharged concretely. -/
theorem C7_strTail_flat_witness :
    ∃ st2 y,
      idris_strTail 2 true [Cell.str [97, 98, 99]] (IVal.vaddr 0) = some (st2, y) ∧
      flatVal st2 y :=
  C7_strTail_flat.1 [Cell.str [97, 98, 99]] (IVal.vaddr 0) 2 true
    (Or.inl ⟨0, [97, 98, 99], rfl, rfl⟩) (le_refl 2)

end IdrisRTS
